import Mathlib

set_option linter.unusedSectionVars false

/-!
# Markov-chain text generator: a shallow embedding of `src/MarkovChain.h`

The C++ class `MarkovChain<T>` keeps

* `previousState : std::optional<T>`, the cursor, and
* `states : std::unordered_map<T, std::vector<Transition>>`.

Modelling decisions, all local to this file:

* The hash map is an association list with pairwise distinct keys
  (`built_build` proves that `addElement` keeps them distinct).  Its
  iteration order is taken to be insertion order; the C++ standard leaves the
  order unspecified, and only the choice of the start state in `generate`
  depends on it.  What is proved of the start state holds for every key.
* `int count` is a 32-bit signed integer: `count++` is the successor reduced
  to the range `[-2^31, 2^31)` in two's complement (`wrapInt32`).  The C++
  standard leaves the overflow undefined; the wrap is what the compiled code
  does.
* `float` is replaced by exact rationals `ℚ`, and `x / 0` is `0` as in Lean
  where the code obtains a NaN or an infinity.  A divisor of `0` needs wrapped
  counts.  The inner sampling loop is also given with the addition as a
  parameter (`pickWith`), which covers the rounded addition of `float`.
* `rand()` is a stream `rand : ℕ → ℕ`; `rand i` is the value returned by the
  `i`-th call (counted from `0`) made by `generate`.  `RAND_MAX` is a
  parameter.
* `unsigned int maxLength` is a natural number reduced modulo `2^32`, and its
  conversion to `int itemCount` is two's complement (`toInt32`).
* Undefined behaviour and C++ exceptions are returned as a `Fault`.
* The output on `std::cerr` and the allocation made by
  `generated.reserve(maxLength)` are not modelled.
-/

namespace Markov

/-- Ways in which `generate` can leave its normal path. -/
inductive Fault where
  /-- The start index `rand() % states.size()` with `states.size() == 0`. -/
  | moduloByZero
  /-- An iterator advanced past the last element of the map. -/
  | pastTheEnd
  /-- The exception `std::out_of_range` thrown by `states.at(currentState)`. -/
  | outOfRange
deriving DecidableEq, Repr

/-- The nested `struct Transition` (lines 12-17).  The field `to` of the source
is spelled `to_` because `to` is reserved in Lean. -/
structure Transition (T : Type) where
  to_ : T
  count : Int
  probabilityNormalized : ℚ
deriving DecidableEq

/-- The association list standing for
`std::unordered_map<T, std::vector<Transition>>`. -/
abbrev StateMap (T : Type) := List (T × List (Transition T))

/-- The data members of `MarkovChain<T>` (lines 19-21). -/
structure MarkovChain (T : Type) where
  previousState : Option T
  states : StateMap T
deriving DecidableEq

variable {T : Type} [DecidableEq T]

/-- The lookup `states.find(k)`: the transition list stored under the first
entry with key `k`, or `none` for `states.end()`. -/
def find (k : T) : StateMap T → Option (List (Transition T))
  | [] => none
  | e :: rest => if e.1 = k then some e.2 else find k rest

/-- In-place update of the vector an iterator returned by `find` points to. -/
def modify (k : T) (f : List (Transition T) → List (Transition T)) :
    StateMap T → StateMap T
  | [] => []
  | e :: rest => if e.1 = k then (e.1, f e.2) :: rest else e :: modify k f rest

/-- The keys of the map. -/
def keys (st : StateMap T) : List T := st.map Prod.fst

/-- The value of a 32-bit `int` that holds `z` after a two's complement
overflow: the representative of `z` modulo `2^32` in `[-2^31, 2^31)`. -/
def wrapInt32 (z : Int) : Int := (z + 2147483648) % 4294967296 - 2147483648

/-- Lines 85-102 of `addElement`: `std::find_if` looks for the first
transition whose `to` equals `element`; when there is none a new transition
with `count = 1` and `probabilityNormalized = 1.0f` is pushed at the back,
otherwise the `int count` of the one found is incremented (`count++`). -/
def recordTransition (element : T) : List (Transition T) → List (Transition T)
  | [] => [{ to_ := element, count := 1, probabilityNormalized := 1 }]
  | t :: ts =>
    if t.to_ = element then { t with count := wrapInt32 (t.count + 1) } :: ts
    else t :: recordTransition element ts

/-- Lines 66-71 of `addElement`: when `states.find(element)` is
`states.end()`, a new entry with an empty transition vector is inserted. -/
def withState (element : T) (st : StateMap T) : StateMap T :=
  match find element st with
  | none => st ++ [(element, [])]
  | some _ => st

/-- The model built by the constructor (lines 42-46). -/
def MarkovChain.empty : MarkovChain T := { previousState := none, states := [] }

/-- The method `addElement` (lines 62-105). -/
def MarkovChain.addElement (m : MarkovChain T) (element : T) : MarkovChain T :=
  -- lines 66-71: create the state when it is not in the map yet
  let states1 := withState element m.states
  match m.previousState with
  -- lines 74-78: no previous state
  | none => { previousState := some element, states := states1 }
  | some prev =>
    match find prev states1 with
    -- lines 82-83: early return, the cursor is left as it is
    | none => { previousState := some prev, states := states1 }
    -- lines 85-104
    | some _ =>
      { previousState := some element
        states := modify prev (recordTransition element) states1 }

/-- Lines 53-55 of `_normalizeProbabilities`: the value of `sum` after the
first inner loop, which is the divisor of the second. -/
def sumCounts (transitions : List (Transition T)) : ℚ :=
  transitions.foldl (fun acc t => acc + (t.count : ℚ)) 0

/-- The body of the outer loop of `_normalizeProbabilities` (lines 53-58) for
one transition vector: `sum` accumulates the counts, then every probability is
overwritten by `count / sum`. -/
def normalizeTransitions (transitions : List (Transition T)) : List (Transition T) :=
  let sum : ℚ := sumCounts transitions
  transitions.map fun t => { t with probabilityNormalized := (t.count : ℚ) / sum }

/-- The method `_normalizeProbabilities` (lines 48-60). -/
def MarkovChain._normalizeProbabilities (m : MarkovChain T) : MarkovChain T :=
  { m with states := m.states.map fun e => (e.1, normalizeTransitions e.2) }

/-- The conversion `int itemCount = maxLength` (line 122) of an
`unsigned int` to a 32-bit `int`. -/
def toInt32 (n : Nat) : Int :=
  if n % 2 ^ 32 < 2 ^ 31 then ((n % 2 ^ 32 : Nat) : Int)
  else ((n % 2 ^ 32 : Nat) : Int) - 2 ^ 32

/-- The inner `for` loop of `generate` (lines 132-143) with the addition of
`sum += transition.probabilityNormalized` as a parameter `add`, so that it
covers the rounded addition of `float` as well as the exact one. -/
def pickWith (add : ℚ → ℚ → ℚ) (random : ℚ) :
    ℚ → List (Transition T) → Option (Transition T)
  | _, [] => none
  | sum, t :: ts =>
    if random < add sum t.probabilityNormalized then some t
    else pickWith add random (add sum t.probabilityNormalized) ts

/-- The inner `for` loop of `generate` (lines 132-143) in exact arithmetic:
`sum` is the running sum of probabilities; the first transition with
`random < sum` is selected, and `none` means that the loop ran to its end
without a `break`.  It is `pickWith` with the exact addition
(`pickWith_add_eq_pick`). -/
def pick (random : ℚ) : ℚ → List (Transition T) → Option (Transition T)
  | _, [] => none
  | sum, t :: ts =>
    if random < sum + t.probabilityNormalized then some t
    else pick random (sum + t.probabilityNormalized) ts

/-- The `while (itemCount >= 0)` loop of `generate` (lines 123-145).
`calls` is the number of calls of `rand()` made so far. -/
def generateLoop (RAND_MAX : Nat) (rand : Nat → Nat) (states : StateMap T)
    (itemCount : Int) (calls : Nat) (currentState : T) (generated : List T) :
    Except Fault (List T) :=
  if 0 ≤ itemCount then
    -- line 126
    match find currentState states with
    | none => .error .outOfRange
    | some transitions =>
      -- lines 128-129
      if transitions.length = 0 then .ok generated
      else
        -- line 131
        let random : ℚ := (rand calls : ℚ) / (RAND_MAX : ℚ)
        match pick random 0 transitions with
        | some t =>
          generateLoop RAND_MAX rand states (itemCount - 1) (calls + 1) t.to_
            (generated ++ [t.to_])
        | none =>
          generateLoop RAND_MAX rand states (itemCount - 1) (calls + 1) currentState
            generated
  else .ok generated
termination_by (itemCount + 1).toNat
decreasing_by all_goals omega

/-- Lines 115-118 of `generate`: the start state is the key at position
`rand() % states.size()` of the iteration order. -/
def startState (rand : Nat → Nat) (states : StateMap T) : Except Fault T :=
  if states.length = 0 then .error .moduloByZero
  else
    match states[rand 0 % states.length]? with
    | none => .error .pastTheEnd
    | some e => .ok e.1

/-- The method `generate` (lines 107-148).  The first component is the
returned vector (or the fault), the second the model the call leaves behind. -/
def MarkovChain.generate (RAND_MAX : Nat) (rand : Nat → Nat) (m : MarkovChain T)
    (maxLength : Nat) : Except Fault (List T) × MarkovChain T :=
  let m1 := m._normalizeProbabilities
  match startState rand m1.states with
  | .error f => (.error f, m1)
  | .ok currentState =>
    (generateLoop RAND_MAX rand m1.states (toInt32 maxLength) 1 currentState [], m1)

/-- The model obtained from the empty one by calling `addElement` on the
tokens of `s`, in order. -/
def build (s : List T) : MarkovChain T :=
  s.foldl MarkovChain.addElement MarkovChain.empty

/-- The adjacent pairs `(s[i], s[i+1])` of a token sequence, in order. -/
def adjacent (s : List T) : List (T × T) := s.zip s.tail

/-- The counts of the transitions with destination `B` in one vector. -/
def countsTo (B : T) (ts : List (Transition T)) : List Int :=
  (ts.filter fun t => t.to_ = B).map fun t => t.count

/-- All counts stored anywhere in the map on a transition from `A` to `B`. -/
def storedCounts (st : StateMap T) (A B : T) : List Int :=
  (st.filter fun e => e.1 = A).flatMap fun e => countsTo B e.2

/-- The transition vector of `A`, empty when `A` is not a key. -/
def outgoing (st : StateMap T) (A : T) : List (Transition T) :=
  (find A st).getD []

/-- The number of positions `i` at which `A` is immediately followed by `B`,
counted on the list of adjacent pairs. -/
def adjacentCount (s : List T) (A B : T) : Nat :=
  (adjacent s).countP fun p => decide (p.1 = A ∧ p.2 = B)

/-- The number of indices `i` with `s[i] = A` and `s[i+1] = B`, counted
index by index. -/
def indexCount (s : List T) (A B : T) : Nat :=
  ((List.range (s.length - 1)).filter fun i =>
    decide (s[i]? = some A ∧ s[i + 1]? = some B)).length

/-- The sum of the counts of a transition vector. -/
def countSum (ts : List (Transition T)) : Int := (ts.map fun t => t.count).sum

/-- The keys, destinations and counts of a map, without the probabilities. -/
def skeleton (st : StateMap T) : List (T × List (T × Int)) :=
  st.map fun e => (e.1, e.2.map fun t => (t.to_, t.count))

/-- Every destination of a stored transition is a key of the map. -/
def Closed (st : StateMap T) : Prop :=
  ∀ e ∈ st, ∀ t ∈ e.2, t.to_ ∈ keys st

/-- The tokens of `path` can be visited in order from `cur`, each step along a
stored transition. -/
def IsWalk (st : StateMap T) : T → List T → Prop
  | _, [] => True
  | cur, y :: rest => y ∈ (outgoing st cur).map (fun t => t.to_) ∧ IsWalk st y rest

/-- The training sequence of the scenario of the specification. -/
def scenario : List String := ["a", "b", "a", "c", "a", "b"]

/-- The value of `RAND_MAX` in glibc, `2^31 - 1`. -/
def randMax31 : Nat := 2147483647

/-- A stream of `rand()` results whose first value selects the state at
index `1` of a three-state map and whose later values are `1073741823`, for
which `(float)rand() / (float)RAND_MAX` is `0.5f` when `RAND_MAX = 2^31 - 1`
(both operands round to powers of two). -/
def halfDraws (i : Nat) : Nat := if i = 0 then 1 else 1073741823

/-- A stream of `rand()` results that are all equal to `RAND_MAX = 2^31 - 1`,
so that every transition draw is `1`. -/
def maxDraws (_ : Nat) : Nat := 2147483647

/-- One line written by `printToDot` (lines 155-164): the opening line of the
digraph, the declaration of a state, an edge labelled with its normalized
probability and its count, and the closing line. -/
inductive DotLine (T : Type) where
  | opening
  | node (state : T)
  | edge (src dst : T) (probabilityNormalized : ℚ) (count : Int)
  | closing
deriving DecidableEq

/-- The method `printToDot` (lines 150-165).  The first component is the
sequence of lines written to `out`, the second the model the call leaves
behind. -/
def MarkovChain.printToDot (m : MarkovChain T) : List (DotLine T) × MarkovChain T :=
  let m1 := m._normalizeProbabilities
  ([DotLine.opening] ++
    (m1.states.flatMap fun state =>
      DotLine.node state.1 ::
        state.2.map fun transition =>
          DotLine.edge state.1 transition.to_ transition.probabilityNormalized
            transition.count) ++
    [DotLine.closing], m1)

/-- The number of times the body of the `while (itemCount >= 0)` loop of
`generate` (lines 124-144) is entered; the recursion is that of
`generateLoop`. -/
def loopIterations (RAND_MAX : Nat) (rand : Nat → Nat) (states : StateMap T)
    (itemCount : Int) (calls : Nat) (currentState : T) : Nat :=
  if 0 ≤ itemCount then
    match find currentState states with
    | none => 1
    | some transitions =>
      if transitions.length = 0 then 1
      else
        let random : ℚ := (rand calls : ℚ) / (RAND_MAX : ℚ)
        match pick random 0 transitions with
        | some t =>
          1 + loopIterations RAND_MAX rand states (itemCount - 1) (calls + 1) t.to_
        | none =>
          1 + loopIterations RAND_MAX rand states (itemCount - 1) (calls + 1) currentState
  else 0
termination_by (itemCount + 1).toNat
decreasing_by all_goals omega

/-- The distinct elements of a list in the order of their first occurrence. -/
def firstOccurrences : List T → List T
  | [] => []
  | x :: xs => x :: (firstOccurrences xs).filter fun y => y ≠ x

/-- The tokens that immediately follow an occurrence of `A` in `s`, in the
order of the positions at which they occur. -/
def followers (s : List T) (A : T) : List T :=
  ((adjacent s).filter fun p => p.1 = A).map Prod.snd

/-- The cumulative probability `p_0 + ... + p_j` of the first `j + 1`
transitions of a vector. -/
def cumulative (ts : List (Transition T)) (j : Nat) : ℚ :=
  ((ts.take (j + 1)).map fun t => t.probabilityNormalized).sum

/-- The sum of all transition counts stored in the map. -/
def totalCount (st : StateMap T) : Int := (st.map fun e => countSum e.2).sum

/-- The value of `sum` in the inner loop of `generate` after the transitions
`t_0, ..., t_j` have been added, from `sum = 0` and with the addition `add`. -/
def runningSum (add : ℚ → ℚ → ℚ) (ts : List (Transition T)) (j : Nat) : ℚ :=
  ((ts.take (j + 1)).map fun t => t.probabilityNormalized).foldl add 0

/-- No adjacent pair occurs `2^31` times or more in `s`, so that no `count`
overflows while `s` is fed to `addElement`. -/
def PairsBounded (s : List T) : Prop :=
  ∀ A B, adjacentCount s A B < 2147483648

/-- The invariant proved below for the model `m` obtained by feeding the tokens of `s`. -/
structure Built (s : List T) (m : MarkovChain T) : Prop where
  cursor : m.previousState = s.getLast?
  nodup : (keys m.states).Nodup
  keys_iff : ∀ k, k ∈ keys m.states ↔ k ∈ s
  counts : ∀ A B, countsTo B (outgoing m.states A) =
    if adjacentCount s A B = 0 then [] else [wrapInt32 (adjacentCount s A B : Int)]

/-! ## The association list -/

theorem find_eq_none_iff (k : T) (st : StateMap T) :
    find k st = none ↔ k ∉ keys st := by
  induction st with
  | nil => simp [find, keys]
  | cons e rest ih =>
    by_cases h : e.1 = k
    · simp [find, keys, h]
    · have hk : ¬ k = e.1 := fun h2 => h h2.symm
      simpa [find, keys, h, hk] using ih

theorem find_of_mem_keys {k : T} {st : StateMap T} (h : k ∈ keys st) :
    ∃ ts, find k st = some ts := by
  cases hf : find k st with
  | none => exact absurd h ((find_eq_none_iff k st).1 hf)
  | some ts => exact ⟨ts, rfl⟩

theorem mem_of_find {k : T} {st : StateMap T} {ts : List (Transition T)}
    (h : find k st = some ts) : (k, ts) ∈ st := by
  induction st with
  | nil => simp [find] at h
  | cons e rest ih =>
    by_cases hk : e.1 = k
    · simp [find, hk] at h
      subst h
      subst hk
      simp
    · simp [find, hk] at h
      exact List.mem_cons_of_mem _ (ih h)

theorem mem_keys_of_find {k : T} {st : StateMap T} {ts : List (Transition T)}
    (h : find k st = some ts) : k ∈ keys st :=
  List.mem_map.2 ⟨(k, ts), mem_of_find h, rfl⟩

theorem find_of_mem_nodup {k : T} {st : StateMap T} {ts : List (Transition T)}
    (hn : (keys st).Nodup) (h : (k, ts) ∈ st) : find k st = some ts := by
  induction st with
  | nil => simp at h
  | cons e rest ih =>
    simp only [keys, List.map_cons, List.nodup_cons] at hn
    rcases List.mem_cons.1 h with h1 | h1
    · subst h1
      simp [find]
    · have hne : e.1 ≠ k := by
        intro he
        exact hn.1 (he ▸ List.mem_map.2 ⟨(k, ts), h1, rfl⟩)
      simp only [find, hne, if_false]
      exact ih hn.2 h1

theorem keys_modify (k : T) (f : List (Transition T) → List (Transition T))
    (st : StateMap T) : keys (modify k f st) = keys st := by
  induction st with
  | nil => rfl
  | cons e rest ih =>
    by_cases h : e.1 = k
    · simp [modify, keys, h]
    · simp only [modify, h, if_false, keys, List.map_cons]
      exact congrArg _ ih

theorem find_modify (a k : T) (f : List (Transition T) → List (Transition T))
    (st : StateMap T) :
    find a (modify k f st) = if a = k then (find k st).map f else find a st := by
  induction st with
  | nil => simp [modify, find]
  | cons e rest ih =>
    by_cases h : e.1 = k
    · by_cases ha : a = k
      · simp [modify, find, h, ha]
      · have : ¬ k = a := fun h2 => ha h2.symm
        simp [modify, find, h, ha, this]
    · by_cases ha : e.1 = a
      · have : ¬ a = k := fun h2 => h (ha.trans h2)
        simp [modify, find, h, ha, this]
      · simp only [modify, h, if_false, find, ha]
        exact ih

theorem find_append_new (a x : T) (st : StateMap T) :
    find a (st ++ [(x, [])]) =
      (find a st).orElse fun _ => if x = a then some [] else none := by
  induction st with
  | nil => simp [find]
  | cons e rest ih =>
    by_cases h : e.1 = a
    · simp [find, h]
    · simp only [List.cons_append, find, h, if_false]
      exact ih

theorem outgoing_append_new (a x : T) (st : StateMap T) :
    outgoing (st ++ [(x, [])]) a = outgoing st a := by
  unfold outgoing
  rw [find_append_new]
  cases find a st with
  | some ts => simp
  | none => by_cases h : x = a <;> simp [h]

theorem outgoing_modify (a k : T) (f : List (Transition T) → List (Transition T))
    (st : StateMap T) (hk : k ∈ keys st) :
    outgoing (modify k f st) a = if a = k then f (outgoing st k) else outgoing st a := by
  unfold outgoing
  rw [find_modify]
  obtain ⟨ts, hts⟩ := find_of_mem_keys hk
  by_cases h : a = k
  · simp [h, hts]
  · simp [h]

/-! ## Recording one observed pair -/

theorem countsTo_recordTransition_ne {B x : T} (h : B ≠ x) (ts : List (Transition T)) :
    countsTo B (recordTransition x ts) = countsTo B ts := by
  have hx : ¬ x = B := fun h2 => h h2.symm
  induction ts with
  | nil => simp [recordTransition, countsTo, hx]
  | cons t ts ih =>
    by_cases ht : t.to_ = x
    · have htB : ¬ t.to_ = B := fun h2 => hx (ht.symm.trans h2)
      simp [recordTransition, countsTo, ht, hx]
    · simp only [countsTo] at ih
      by_cases htB : t.to_ = B
      · simp [recordTransition, countsTo, ht, htB, h, ih]
      · simp [recordTransition, countsTo, ht, htB, ih]

theorem wrapInt32_one : wrapInt32 1 = 1 := by
  unfold wrapInt32
  omega

theorem wrapInt32_succ (z : Int) : wrapInt32 (wrapInt32 z + 1) = wrapInt32 (z + 1) := by
  unfold wrapInt32
  omega

theorem wrapInt32_of_lt {z : Int} (h1 : -2147483648 ≤ z) (h2 : z < 2147483648) :
    wrapInt32 z = z := by
  unfold wrapInt32
  omega

theorem wrapInt32_natCast {n : Nat} (h : n < 2147483648) : wrapInt32 (n : Int) = (n : Int) :=
  wrapInt32_of_lt (by omega) (by omega)

theorem countsTo_recordTransition_self (x : T) (ts : List (Transition T)) :
    countsTo x (recordTransition x ts) =
      match countsTo x ts with
      | [] => [1]
      | c :: cs => wrapInt32 (c + 1) :: cs := by
  induction ts with
  | nil => simp [recordTransition, countsTo]
  | cons t ts ih =>
    by_cases ht : t.to_ = x
    · simp [recordTransition, countsTo, ht]
    · simp only [countsTo] at ih
      simp [recordTransition, countsTo, ht, ih]

theorem storedCounts_eq_countsTo_outgoing {st : StateMap T} (hn : (keys st).Nodup)
    (A B : T) : storedCounts st A B = countsTo B (outgoing st A) := by
  induction st with
  | nil => simp [storedCounts, outgoing, find, countsTo]
  | cons e rest ih =>
    simp only [keys, List.map_cons, List.nodup_cons] at hn
    by_cases h : e.1 = A
    · have hrest : rest.filter (fun e => decide (e.1 = A)) = [] := by
        rw [List.filter_eq_nil_iff]
        intro e2 he2
        have : e2.1 ≠ A := fun h2 => hn.1 (h ▸ h2 ▸ List.mem_map.2 ⟨e2, he2, rfl⟩)
        simpa using this
      simp [storedCounts, outgoing, find, h, hrest]
    · have ih2 := ih hn.2
      simp only [storedCounts, outgoing] at ih2
      simp [storedCounts, outgoing, find, h, ih2]

/-! ## Adjacent pairs of the training sequence -/

omit [DecidableEq T] in
theorem adjacent_append_singleton (s : List T) (x : T) :
    adjacent (s ++ [x]) = adjacent s ++ (s.getLast?.map fun p => (p, x)).toList := by
  induction s with
  | nil => simp [adjacent]
  | cons a r ih =>
    cases r with
    | nil => simp [adjacent]
    | cons b r2 =>
      have h1 : adjacent (a :: b :: r2 ++ [x]) = (a, b) :: adjacent (b :: r2 ++ [x]) := by
        simp [adjacent]
      have h2 : adjacent (a :: b :: r2) = (a, b) :: adjacent (b :: r2) := by
        simp [adjacent]
      rw [h1, ih, h2]
      simp [List.getLast?_cons_cons]

theorem adjacentCount_append_singleton (s : List T) (x A B : T) :
    adjacentCount (s ++ [x]) A B =
      adjacentCount s A B + if s.getLast? = some A ∧ x = B then 1 else 0 := by
  unfold adjacentCount
  rw [adjacent_append_singleton, List.countP_append]
  cases hl : s.getLast? with
  | none => simp
  | some p =>
    by_cases h : p = A ∧ x = B
    · simp [List.countP_cons, h]
    · simp [List.countP_cons, h]

theorem mem_adjacent_of_adjacentCount_ne_zero {s : List T} {A B : T}
    (h : adjacentCount s A B ≠ 0) : (A, B) ∈ adjacent s := by
  unfold adjacentCount at h
  have hpos : 0 < (adjacent s).countP fun p => decide (p.1 = A ∧ p.2 = B) :=
    Nat.pos_of_ne_zero h
  obtain ⟨p, hp, hpp⟩ := List.countP_pos_iff.1 hpos
  have h2 : p.1 = A ∧ p.2 = B := by simpa using hpp
  have : p = (A, B) := Prod.ext h2.1 h2.2
  exact this ▸ hp

theorem adjacentCount_ne_zero_of_mem {s : List T} {A B : T}
    (h : (A, B) ∈ adjacent s) : adjacentCount s A B ≠ 0 := by
  unfold adjacentCount
  exact Nat.pos_iff_ne_zero.1 (List.countP_pos_iff.2 ⟨(A, B), h, by simp⟩)

/-! ## The invariant of models built by `addElement` -/

theorem keys_withState (x : T) (st : StateMap T) :
    keys (withState x st) = if x ∈ keys st then keys st else keys st ++ [x] := by
  unfold withState
  cases h : find x st with
  | none =>
    have := (find_eq_none_iff x st).1 h
    simp [keys, this] at *
    simp [this]
  | some ts =>
    have := mem_keys_of_find h
    simp [this]

theorem nodup_keys_withState {x : T} {st : StateMap T} (h : (keys st).Nodup) :
    (keys (withState x st)).Nodup := by
  rw [keys_withState]
  by_cases hx : x ∈ keys st
  · simpa [hx] using h
  · simp only [hx, if_false]
    exact List.Nodup.append h (List.nodup_singleton x) (by simpa using hx)

theorem mem_keys_withState (k x : T) (st : StateMap T) :
    k ∈ keys (withState x st) ↔ k ∈ keys st ∨ k = x := by
  rw [keys_withState]
  by_cases hx : x ∈ keys st
  · simp only [hx, if_true]
    constructor
    · exact Or.inl
    · rintro (h | h)
      · exact h
      · exact h ▸ hx
  · simp [hx]

theorem outgoing_withState (a x : T) (st : StateMap T) :
    outgoing (withState x st) a = outgoing st a := by
  unfold withState
  cases h : find x st with
  | none => exact outgoing_append_new a x st
  | some ts => rfl

theorem addElement_of_none {m : MarkovChain T} (x : T) (h : m.previousState = none) :
    m.addElement x = { previousState := some x, states := withState x m.states } := by
  simp [MarkovChain.addElement, h]

theorem addElement_of_some {m : MarkovChain T} (x : T) {p : T}
    (h : m.previousState = some p) (hp : p ∈ keys m.states) :
    m.addElement x =
      { previousState := some x
        states := modify p (recordTransition x) (withState x m.states) } := by
  have hp2 : p ∈ keys (withState x m.states) := (mem_keys_withState p x m.states).2 (Or.inl hp)
  obtain ⟨ts, hts⟩ := find_of_mem_keys hp2
  simp [MarkovChain.addElement, h, hts]

theorem built_nil : Built ([] : List T) MarkovChain.empty where
  cursor := rfl
  nodup := List.nodup_nil
  keys_iff := by simp [MarkovChain.empty, keys]
  counts := by simp [MarkovChain.empty, outgoing, find, countsTo, adjacentCount, adjacent]

theorem built_step {s : List T} {m : MarkovChain T} (h : Built s m) (x : T) :
    Built (s ++ [x]) (m.addElement x) := by
  cases hp : m.previousState with
  | none =>
    have hs : s = [] := List.getLast?_eq_none_iff.1 (h.cursor ▸ hp)
    rw [addElement_of_none x hp]
    refine ⟨by simp, nodup_keys_withState h.nodup, ?_, ?_⟩
    · intro k
      rw [mem_keys_withState, h.keys_iff]
      simp
    · intro A B
      simp only [outgoing_withState]
      rw [h.counts, adjacentCount_append_singleton]
      simp [hs]
  | some p =>
    have hlast : s.getLast? = some p := h.cursor ▸ hp
    have hps : p ∈ s := List.mem_of_getLast?_eq_some hlast
    have hpk : p ∈ keys m.states := (h.keys_iff p).2 hps
    have hpk2 : p ∈ keys (withState x m.states) :=
      (mem_keys_withState p x m.states).2 (Or.inl hpk)
    rw [addElement_of_some x hp hpk]
    refine ⟨by simp, ?_, ?_, ?_⟩
    · simp only [keys_modify]
      exact nodup_keys_withState h.nodup
    · intro k
      simp only [keys_modify]
      rw [mem_keys_withState, h.keys_iff]
      simp
    · intro A B
      simp only []
      rw [outgoing_modify A p _ _ hpk2, adjacentCount_append_singleton, hlast]
      simp only [outgoing_withState]
      by_cases hA : A = p
      · subst hA
        by_cases hB : B = x
        · subst hB
          rw [if_pos rfl, countsTo_recordTransition_self, h.counts]
          by_cases hc : adjacentCount s A B = 0
          · simp [hc, wrapInt32_one]
          · simp only [hc, if_false, if_true, and_self]
            have hne : adjacentCount s A B + 1 ≠ 0 := Nat.succ_ne_zero _
            simp only [hne, if_false]
            rw [wrapInt32_succ]
            push_cast
            rfl
        · have hB2 : ¬ x = B := fun h2 => hB h2.symm
          rw [if_pos rfl, countsTo_recordTransition_ne hB, h.counts]
          simp [hB2]
      · have hA2 : ¬ p = A := fun h2 => hA h2.symm
        rw [if_neg hA, h.counts]
        simp [hA2]

theorem build_append_singleton (s : List T) (x : T) :
    build (s ++ [x]) = (build s).addElement x := by
  simp [build, List.foldl_append]

theorem built_build (s : List T) : Built s (build s) := by
  induction s using List.reverseRecOn with
  | nil => exact built_nil
  | append_singleton s x ih =>
    rw [build_append_singleton]
    exact built_step ih x

theorem indexCount_cons_cons (x y : T) (r : List T) (A B : T) :
    indexCount (x :: y :: r) A B =
      indexCount (y :: r) A B + if x = A ∧ y = B then 1 else 0 := by
  unfold indexCount
  have hlen : (x :: y :: r).length - 1 = (y :: r).length - 1 + 1 := by simp
  rw [hlen, List.range_succ_eq_map, List.filter_cons, List.filter_map]
  have hfun : ((fun i => decide ((x :: y :: r)[i]? = some A ∧ (x :: y :: r)[i + 1]? = some B)) ∘
      Nat.succ) = fun i => decide ((y :: r)[i]? = some A ∧ (y :: r)[i + 1]? = some B) := by
    funext i
    simp
  rw [hfun]
  by_cases h : x = A ∧ y = B
  · simp [h]
  · simp [h]

theorem adjacentCount_cons_cons (x y : T) (r : List T) (A B : T) :
    adjacentCount (x :: y :: r) A B =
      adjacentCount (y :: r) A B + if x = A ∧ y = B then 1 else 0 := by
  unfold adjacentCount
  have h : adjacent (x :: y :: r) = (x, y) :: adjacent (y :: r) := by simp [adjacent]
  rw [h, List.countP_cons]
  simp

theorem indexCount_eq_adjacentCount (s : List T) (A B : T) :
    indexCount s A B = adjacentCount s A B := by
  induction s with
  | nil => simp [indexCount, adjacentCount, adjacent]
  | cons x r ih =>
    cases r with
    | nil => simp [indexCount, adjacentCount, adjacent]
    | cons y r2 => rw [indexCount_cons_cons, adjacentCount_cons_cons, ih]

/-! ## Long runs of one token -/

omit [DecidableEq T] in
theorem replicate_add_two (n : Nat) (x : T) :
    List.replicate (n + 2) x = x :: x :: List.replicate n x := rfl

theorem build_pair (x : T) :
    build [x, x] =
      { previousState := some x
        states := [(x, [{ to_ := x, count := 1, probabilityNormalized := 1 }])] } := by
  simp [build, MarkovChain.addElement, MarkovChain.empty, withState, find, modify,
    recordTransition]

theorem addElement_loop (x : T) (c : Int) :
    ({ previousState := some x
       states := [(x, [{ to_ := x, count := c, probabilityNormalized := 1 }])] } :
      MarkovChain T).addElement x =
      { previousState := some x
        states := [(x, [{ to_ := x, count := wrapInt32 (c + 1),
                          probabilityNormalized := 1 }])] } := by
  simp [MarkovChain.addElement, withState, find, modify, recordTransition]

/-- The model built from `n + 2` copies of one token: a single state with a
loop whose count is `n + 1` as a 32-bit integer. -/
theorem build_replicate (n : Nat) (x : T) :
    build (List.replicate (n + 2) x) =
      { previousState := some x
        states := [(x, [{ to_ := x, count := wrapInt32 ((n : Int) + 1),
                          probabilityNormalized := 1 }])] } := by
  induction n with
  | zero =>
    rw [replicate_add_two, List.replicate_zero, build_pair]
    simp [wrapInt32_one]
  | succ n ih =>
    have h : List.replicate (n + 1 + 2) x = List.replicate (n + 2) x ++ [x] :=
      List.replicate_succ' (n + 2) x
    rw [h, build_append_singleton, ih, addElement_loop, wrapInt32_succ]
    push_cast
    rfl

theorem adjacentCount_replicate (n : Nat) (x : T) :
    adjacentCount (List.replicate (n + 2) x) x x = n + 1 := by
  induction n with
  | zero => simp [adjacentCount, adjacent]
  | succ n ih =>
    have h : List.replicate (n + 1 + 2) x = x :: x :: List.replicate (n + 1) x := rfl
    have h2 : x :: List.replicate (n + 1) x = List.replicate (n + 2) x := rfl
    rw [h, adjacentCount_cons_cons, h2, ih]
    simp

theorem adjacentCount_le_length (s : List T) (A B : T) : adjacentCount s A B ≤ s.length - 1 := by
  unfold adjacentCount adjacent
  refine le_trans (List.countP_le_length _) ?_
  rw [List.length_zip, List.length_tail]
  exact Nat.min_le_right _ _

theorem pairsBounded_of_length {s : List T} (h : s.length ≤ 2147483648) : PairsBounded s := by
  intro A B
  have h1 := adjacentCount_le_length s A B
  by_cases h0 : s.length = 0
  · have : adjacentCount s A B = 0 := by omega
    omega
  · omega

theorem pairsBounded_scenario : PairsBounded scenario :=
  pairsBounded_of_length (by decide)

/-! ## Claims about `addElement` -/

/-- Claim C1, counterexample.  After `2^31 + 1` copies of the token `x` the
pair `(x, x)` has occurred `2^31` times, and the count stored on `x -> x` is
`-2^31`: the 32-bit count has overflowed. -/
theorem C1_count_overflow_counterexample :
    storedCounts (build (List.replicate (2147483647 + 2) "x")).states "x" "x" =
      [-2147483648] ∧
    indexCount (List.replicate (2147483647 + 2) "x") "x" "x" = 2147483648 := by
  constructor
  · rw [build_replicate]
    have hw : wrapInt32 (((2147483647 : Nat) : Int) + 1) = -2147483648 := by
      norm_num [wrapInt32]
    rw [hw]
    simp [storedCounts, countsTo]
  · rw [indexCount_eq_adjacentCount, adjacentCount_replicate]

/-- Claim C1, amended.  For every token sequence `s` fed to the empty model by
successive `addElement` calls and all tokens `A`, `B`, let `n` be the number of
indices `i` with `s[i] = A` and `s[i+1] = B`.  When `n < 2^31`, the counts
stored in the map on transitions from `A` to `B` are exactly one count, equal
to `n`, when `n` is not `0`, and there is no such transition when `n` is `0`.
For every `n`, the one stored count is `n` reduced modulo `2^32` to the range
of a 32-bit integer.  On `[a,b,a,c,a,b]` the stored transitions are `a -> b`
(count 2), `a -> c` (count 1), `b -> a` (count 1), `c -> a` (count 1) and
nothing else. -/
theorem C1_counts_equal_adjacent_pairs (s : List T) (A B : T) :
    (indexCount s A B < 2147483648 →
      storedCounts (build s).states A B =
        if indexCount s A B = 0 then [] else [(indexCount s A B : Int)]) ∧
    (storedCounts (build s).states A B =
      if indexCount s A B = 0 then [] else [wrapInt32 (indexCount s A B : Int)]) ∧
    (build ["a", "b", "a", "c", "a", "b"]).states.map
        (fun e => (e.1, e.2.map fun t => (t.to_, t.count))) =
      [("a", [("b", 2), ("c", 1)]), ("b", [("a", 1)]), ("c", [("a", 1)])] := by
  have hb := built_build s
  have hgen : storedCounts (build s).states A B =
      if indexCount s A B = 0 then [] else [wrapInt32 (indexCount s A B : Int)] := by
    rw [storedCounts_eq_countsTo_outgoing hb.nodup, hb.counts, indexCount_eq_adjacentCount]
  refine ⟨?_, hgen, by decide⟩
  intro hlt
  rw [hgen, wrapInt32_natCast hlt]

/-- An instance of the amended claim C1: the pair `(a, b)` occurs twice in the
scenario and the count stored on `a -> b` is `2`. -/
theorem C1_counts_equal_adjacent_pairs_witness :
    indexCount scenario "a" "b" < 2147483648 ∧
    storedCounts (build scenario).states "a" "b" = [2] := by
  have hlt : indexCount scenario "a" "b" < 2147483648 := by decide
  have h := (C1_counts_equal_adjacent_pairs scenario "a" "b").1 hlt
  have hv : indexCount scenario "a" "b" = 2 := by decide
  rw [hv] at h
  exact ⟨hlt, h⟩

theorem outgoing_of_mem {st : StateMap T} (hn : (keys st).Nodup)
    {e : T × List (Transition T)} (he : e ∈ st) : outgoing st e.1 = e.2 := by
  unfold outgoing
  rw [find_of_mem_nodup hn he]
  rfl

theorem count_mem_countsTo {ts : List (Transition T)} {t : Transition T} (ht : t ∈ ts) :
    t.count ∈ countsTo t.to_ ts := by
  unfold countsTo
  exact List.mem_map.2 ⟨t, List.mem_filter.2 ⟨ht, by simp⟩, rfl⟩

theorem length_countsTo (B : T) (ts : List (Transition T)) :
    (countsTo B ts).length = (ts.map fun t => t.to_).count B := by
  induction ts with
  | nil => simp [countsTo]
  | cons t ts ih =>
    simp only [countsTo] at ih
    by_cases h : t.to_ = B
    · simp [countsTo, h, ih]
    · have h2 : ¬ (t.to_ == B) = true := by simpa using h
      simp [countsTo, h, ih, List.count_cons, h2]

/-- In a built model a stored transition carries the number of times its pair
occurs in the training sequence, as a 32-bit integer, and that number is not
zero. -/
theorem Built.stored_pair {s : List T} {m : MarkovChain T} (h : Built s m)
    {e : T × List (Transition T)} (he : e ∈ m.states) {t : Transition T} (ht : t ∈ e.2) :
    adjacentCount s e.1 t.to_ ≠ 0 ∧
      t.count = wrapInt32 (adjacentCount s e.1 t.to_ : Int) := by
  have hc := h.counts e.1 t.to_
  rw [outgoing_of_mem h.nodup he] at hc
  have hm := count_mem_countsTo ht
  rw [hc] at hm
  by_cases h0 : adjacentCount s e.1 t.to_ = 0
  · rw [if_pos h0] at hm
    exact absurd hm (List.not_mem_nil _)
  · rw [if_neg h0] at hm
    exact ⟨h0, List.mem_singleton.1 hm⟩

/-- When no pair occurs `2^31` times or more, a stored transition carries the
number of times its pair occurs in the training sequence. -/
theorem Built.count_eq {s : List T} {m : MarkovChain T} (h : Built s m) (hbd : PairsBounded s)
    {e : T × List (Transition T)} (he : e ∈ m.states) {t : Transition T} (ht : t ∈ e.2) :
    adjacentCount s e.1 t.to_ ≠ 0 ∧ t.count = (adjacentCount s e.1 t.to_ : Int) := by
  obtain ⟨h0, h1⟩ := h.stored_pair he ht
  exact ⟨h0, h1.trans (wrapInt32_natCast (hbd _ _))⟩

theorem Built.count_range {s : List T} {m : MarkovChain T} (h : Built s m)
    {e : T × List (Transition T)} (he : e ∈ m.states) {t : Transition T} (ht : t ∈ e.2) :
    -2147483648 ≤ t.count ∧ t.count < 2147483648 := by
  rw [(h.stored_pair he ht).2]
  unfold wrapInt32
  omega

theorem Built.dests_nodup {s : List T} {m : MarkovChain T} (h : Built s m)
    {e : T × List (Transition T)} (he : e ∈ m.states) :
    (e.2.map fun t => t.to_).Nodup := by
  rw [List.nodup_iff_count_le_one]
  intro B
  rw [← length_countsTo, ← outgoing_of_mem h.nodup he, h.counts]
  by_cases h0 : adjacentCount s e.1 B = 0 <;> simp [h0]

omit [DecidableEq T] in
theorem mem_of_mem_adjacent {s : List T} {A B : T} (h : (A, B) ∈ adjacent s) :
    A ∈ s ∧ B ∈ s := by
  unfold adjacent at h
  have := List.of_mem_zip h
  exact ⟨this.1, List.mem_of_mem_tail this.2⟩

theorem Built.dest_mem_keys {s : List T} {m : MarkovChain T} (h : Built s m)
    {e : T × List (Transition T)} (he : e ∈ m.states) {t : Transition T} (ht : t ∈ e.2) :
    t.to_ ∈ keys m.states :=
  (h.keys_iff _).2
    (mem_of_mem_adjacent (mem_adjacent_of_adjacentCount_ne_zero (h.stored_pair he ht).1)).2

theorem find_withState_of_mem {k : T} (x : T) {st : StateMap T} (hk : k ∈ keys st) :
    find k (withState x st) = find k st := by
  unfold withState
  cases h : find x st with
  | some ts => rfl
  | none =>
    obtain ⟨ts, hts⟩ := find_of_mem_keys hk
    simp only []
    rw [find_append_new, hts]
    rfl

theorem recordTransition_eq_map {B : T} {ts : List (Transition T)}
    (hn : (ts.map fun t => t.to_).Nodup) (hB : B ∈ ts.map fun t => t.to_) :
    recordTransition B ts =
      ts.map fun t =>
        if t.to_ = B then { t with count := wrapInt32 (t.count + 1) } else t := by
  induction ts with
  | nil => simp at hB
  | cons t ts ih =>
    simp only [List.map_cons, List.nodup_cons] at hn
    by_cases h : t.to_ = B
    · have hrest : ∀ u ∈ ts, ¬ u.to_ = B := by
        intro u hu hub
        exact hn.1 (h ▸ hub ▸ List.mem_map.2 ⟨u, hu, rfl⟩)
      have hmap : ts.map
          (fun t => if t.to_ = B then { t with count := wrapInt32 (t.count + 1) } else t)
          = ts := by
        conv_rhs => rw [← List.map_id ts]
        apply List.map_congr_left
        intro u hu
        simp [hrest u hu]
      simp only [recordTransition, h, if_true, List.map_cons, hmap]
    · have hB2 : B ∈ ts.map fun t => t.to_ := by
        rcases List.mem_cons.1 hB with h1 | h1
        · exact absurd h1.symm h
        · exact h1
      simp only [recordTransition, h, if_false, List.map_cons, ih hn.2 hB2]

/-- Claim C2.  In every model obtained from the empty model by a sequence of
`addElement` calls, the destination of every stored transition is a key of the
state map. -/
theorem C2_destination_is_state (s : List T) :
    ∀ e ∈ (build s).states, ∀ t ∈ e.2, t.to_ ∈ keys (build s).states :=
  fun _ he _ ht => (built_build s).dest_mem_keys he ht

/-- An instance of claim C2: in the model built from the scenario the transition
`a -> b` of state `a` leads to a key of the map. -/
theorem C2_destination_is_state_witness :
    (("a", [{ to_ := "b", count := 2, probabilityNormalized := 1 },
            { to_ := "c", count := 1, probabilityNormalized := 1 }]) :
        String × List (Transition String)) ∈ (build scenario).states ∧
    "b" ∈ keys (build scenario).states := by
  have hmem : (("a", [{ to_ := "b", count := 2, probabilityNormalized := 1 },
            { to_ := "c", count := 1, probabilityNormalized := 1 }]) :
        String × List (Transition String)) ∈ (build scenario).states := by decide
  exact ⟨hmem, C2_destination_is_state scenario _ hmem
    { to_ := "b", count := 2, probabilityNormalized := 1 } (List.mem_cons_self _ _)⟩

/-- Claim C3, counterexample.  After `2^31` copies of the token `x` the cursor
is `x` and the count stored on `x -> x` is `2^31 - 1`; observing the pair
`(x, x)` once more leaves the count `-2^31`, which is not one higher. -/
theorem C3_increment_overflow_counterexample :
    (build (List.replicate (2147483646 + 2) "x")).previousState = some "x" ∧
    find "x" (build (List.replicate (2147483646 + 2) "x")).states =
      some [{ to_ := "x", count := 2147483647, probabilityNormalized := 1 }] ∧
    find "x" ((build (List.replicate (2147483646 + 2) "x")).addElement "x").states =
      some [{ to_ := "x", count := -2147483648, probabilityNormalized := 1 }] ∧
    (-2147483648 : Int) ≠ 2147483647 + 1 := by
  have hw : wrapInt32 (((2147483646 : Nat) : Int) + 1) = 2147483647 := by
    norm_num [wrapInt32]
  have hw2 : wrapInt32 ((2147483647 : Int) + 1) = -2147483648 := by
    norm_num [wrapInt32]
  rw [build_replicate, hw, addElement_loop, hw2]
  refine ⟨rfl, ?_, ?_, by norm_num⟩
  · simp [find]
  · simp [find]

/-- Claim C3, amended.  In every model obtained from the empty model by a
sequence of `addElement` calls, the destinations in each transition list are
pairwise distinct; and when the cursor is `A` and `A` already has a transition
to `B`, `addElement B` leaves `A` with a list of the same length that differs
from the old one only in the count of the single entry with destination `B`:
that count is one higher when it was below `2^31 - 1`, and in every case is
the successor as a 32-bit integer. -/
theorem C3_destinations_distinct (s : List T) :
    (∀ e ∈ (build s).states, (e.2.map fun t => t.to_).Nodup) ∧
    ∀ (A B : T) (ts : List (Transition T)),
      (build s).previousState = some A → find A (build s).states = some ts →
      B ∈ ts.map (fun t => t.to_) →
      ∃ ts2, find A ((build s).addElement B).states = some ts2 ∧
        ts2.length = ts.length ∧
        (ts.filter fun t => t.to_ = B).length = 1 ∧
        (ts2 = ts.map fun t =>
          if t.to_ = B then { t with count := wrapInt32 (t.count + 1) } else t) ∧
        ((∀ t ∈ ts, t.to_ = B → t.count < 2147483647) →
          ts2 = ts.map fun t => if t.to_ = B then { t with count := t.count + 1 } else t) := by
  have hb := built_build s
  refine ⟨fun e he => hb.dests_nodup he, ?_⟩
  intro A B ts hprev hfind hB
  have hA : A ∈ keys (build s).states := mem_keys_of_find hfind
  have hnd : (ts.map fun t => t.to_).Nodup := hb.dests_nodup (mem_of_find hfind)
  have hfind2 : find A ((build s).addElement B).states =
      some (ts.map fun t =>
        if t.to_ = B then { t with count := wrapInt32 (t.count + 1) } else t) := by
    rw [addElement_of_some B hprev hA]
    simp only []
    rw [find_modify, if_pos rfl, find_withState_of_mem B hA, hfind, Option.map_some']
    rw [recordTransition_eq_map hnd hB]
  refine ⟨_, hfind2, ?_, ?_, rfl, ?_⟩
  · simp
  · have h1 : (countsTo B ts).length = 1 := by
      rw [length_countsTo]
      exact List.count_eq_one_of_mem hnd hB
    simpa [countsTo] using h1
  · intro hlt
    apply List.map_congr_left
    intro t ht
    by_cases htB : t.to_ = B
    · have hr := hb.count_range (mem_of_find hfind) ht
      have hw : wrapInt32 (t.count + 1) = t.count + 1 :=
        wrapInt32_of_lt (by omega) (by have := hlt t ht htB; omega)
      simp only [htB, if_true, hw]
    · simp only [htB, if_false]

/-- An instance of the amended claim C3 on the model built from `[a, b, a]`,
whose cursor is `a` and whose state `a` has the single transition `a -> b`
with count 1. -/
theorem C3_destinations_distinct_witness :
    (build ["a", "b", "a"]).previousState = some "a" ∧
    find "a" (build ["a", "b", "a"]).states =
      some [{ to_ := "b", count := 1, probabilityNormalized := 1 }] ∧
    "b" ∈ [({ to_ := "b", count := 1, probabilityNormalized := 1 } : Transition String)].map
      (fun t => t.to_) ∧
    (∀ t ∈ [({ to_ := "b", count := 1, probabilityNormalized := 1 } : Transition String)],
      t.to_ = "b" → t.count < 2147483647) ∧
    ∃ ts2, find "a" ((build ["a", "b", "a"]).addElement "b").states = some ts2 ∧
      ts2.length = 1 ∧
      ts2 = [{ to_ := "b", count := 2, probabilityNormalized := 1 }] := by
  have h1 : (build ["a", "b", "a"]).previousState = some "a" := by decide
  have h2 : find "a" (build ["a", "b", "a"]).states =
      some [{ to_ := "b", count := 1, probabilityNormalized := 1 }] := by decide
  have h3 : "b" ∈ [({ to_ := "b", count := 1, probabilityNormalized := 1 } :
      Transition String)].map (fun t => t.to_) := by decide
  have h4 : ∀ t ∈ [({ to_ := "b", count := 1, probabilityNormalized := 1 } :
      Transition String)], t.to_ = "b" → t.count < 2147483647 := by
    intro t ht _
    rw [List.mem_singleton.1 ht]
    decide
  obtain ⟨ts2, h5, h6, _, _, h8⟩ :=
    (C3_destinations_distinct ["a", "b", "a"]).2 "a" "b" _ h1 h2 h3
  exact ⟨h1, h2, h3, h4, ts2, h5, h6, by rw [h8 h4]; simp⟩

/-! ## Normalization -/

theorem foldl_count_eq (ts : List (Transition T)) (a : ℚ) :
    ts.foldl (fun acc t => acc + (t.count : ℚ)) a = a + (countSum ts : ℚ) := by
  induction ts generalizing a with
  | nil => simp [countSum]
  | cons t ts ih =>
    simp only [List.foldl_cons, ih, countSum, List.map_cons, List.sum_cons]
    push_cast
    ring

theorem sumCounts_eq (ts : List (Transition T)) : sumCounts ts = (countSum ts : ℚ) := by
  rw [sumCounts, foldl_count_eq, zero_add]

theorem normalizeTransitions_eq (ts : List (Transition T)) :
    normalizeTransitions ts =
      ts.map fun t => { t with probabilityNormalized := (t.count : ℚ) / (countSum ts : ℚ) } := by
  simp [normalizeTransitions, sumCounts_eq]

theorem countSum_normalizeTransitions (ts : List (Transition T)) :
    countSum (normalizeTransitions ts) = countSum ts := by
  simp [normalizeTransitions_eq, countSum, Function.comp_def]

theorem normalizeTransitions_idem (ts : List (Transition T)) :
    normalizeTransitions (normalizeTransitions ts) = normalizeTransitions ts := by
  rw [normalizeTransitions_eq (normalizeTransitions ts), countSum_normalizeTransitions,
    normalizeTransitions_eq]
  simp [Function.comp_def]

theorem skeleton_normalize (m : MarkovChain T) :
    skeleton m._normalizeProbabilities.states = skeleton m.states := by
  simp [skeleton, MarkovChain._normalizeProbabilities, normalizeTransitions_eq,
    Function.comp_def]

theorem keys_normalize (m : MarkovChain T) :
    keys m._normalizeProbabilities.states = keys m.states := by
  simp [keys, MarkovChain._normalizeProbabilities, Function.comp_def]

theorem find_normalize (k : T) (m : MarkovChain T) :
    find k m._normalizeProbabilities.states = (find k m.states).map normalizeTransitions := by
  unfold MarkovChain._normalizeProbabilities
  simp only []
  induction m.states with
  | nil => simp [find]
  | cons e rest ih =>
    by_cases h : e.1 = k
    · simp [find, h]
    · simp [find, h, ih]

theorem sum_probabilities_scaled (c : ℚ) (l : List (Transition T)) :
    ((l.map fun t => { t with probabilityNormalized := (t.count : ℚ) / c }).map
      fun t => t.probabilityNormalized).sum = (countSum l : ℚ) / c := by
  induction l with
  | nil => simp [countSum]
  | cons t l ih =>
    simp only [List.map_cons, List.sum_cons, ih, countSum]
    push_cast
    ring

theorem sum_probabilities_normalize (ts : List (Transition T)) :
    ((normalizeTransitions ts).map fun t => t.probabilityNormalized).sum =
      (countSum ts : ℚ) / (countSum ts : ℚ) := by
  rw [normalizeTransitions_eq]
  exact sum_probabilities_scaled _ ts

theorem Built.count_pos {s : List T} {m : MarkovChain T} (h : Built s m) (hbd : PairsBounded s)
    {e : T × List (Transition T)} (he : e ∈ m.states) {t : Transition T} (ht : t ∈ e.2) :
    1 ≤ t.count := by
  obtain ⟨h0, h1⟩ := h.count_eq hbd he ht
  rw [h1]
  exact_mod_cast Nat.pos_of_ne_zero h0

theorem le_countSum {ts : List (Transition T)} (hpos : ∀ t ∈ ts, 1 ≤ t.count)
    {t : Transition T} (ht : t ∈ ts) : t.count ≤ countSum ts := by
  unfold countSum
  apply List.single_le_sum
  · intro x hx
    obtain ⟨u, hu, rfl⟩ := List.mem_map.1 hx
    have := hpos u hu
    omega
  · exact List.mem_map.2 ⟨t, ht, rfl⟩

theorem mem_normalize_states {m : MarkovChain T} {e : T × List (Transition T)}
    (he : e ∈ m._normalizeProbabilities.states) :
    ∃ e0 ∈ m.states, e = (e0.1, normalizeTransitions e0.2) := by
  simp only [MarkovChain._normalizeProbabilities, List.mem_map] at he
  obtain ⟨e0, h0, h1⟩ := he
  exact ⟨e0, h0, h1.symm⟩

theorem mem_normalizeTransitions {ts : List (Transition T)} {t : Transition T}
    (ht : t ∈ normalizeTransitions ts) :
    ∃ t0 ∈ ts, t = { t0 with probabilityNormalized := (t0.count : ℚ) / (countSum ts : ℚ) } := by
  rw [normalizeTransitions_eq, List.mem_map] at ht
  obtain ⟨t0, h0, h1⟩ := ht
  exact ⟨t0, h0, h1.symm⟩

/-- The state map of the scenario `[a,b,a,c,a,b]` after normalization. -/
theorem scenario_normalized :
    (build ["a", "b", "a", "c", "a", "b"])._normalizeProbabilities.states =
      [("a", [{ to_ := "b", count := 2, probabilityNormalized := 2 / 3 },
              { to_ := "c", count := 1, probabilityNormalized := 1 / 3 }]),
       ("b", [{ to_ := "a", count := 1, probabilityNormalized := 1 }]),
       ("c", [{ to_ := "a", count := 1, probabilityNormalized := 1 }])] := by
  have h : (build ["a", "b", "a", "c", "a", "b"]).states =
      [("a", [{ to_ := "b", count := 2, probabilityNormalized := 1 },
              { to_ := "c", count := 1, probabilityNormalized := 1 }]),
       ("b", [{ to_ := "a", count := 1, probabilityNormalized := 1 }]),
       ("c", [{ to_ := "a", count := 1, probabilityNormalized := 1 }])] := by decide
  simp only [MarkovChain._normalizeProbabilities, h, normalizeTransitions, sumCounts,
    List.map_cons, List.map_nil, List.foldl_cons, List.foldl_nil]
  norm_num

theorem build_replicate_then (n : Nat) {x y : T} (hxy : x ≠ y) :
    build (List.replicate (n + 2) x ++ [y]) =
      { previousState := some y
        states := [(x, [{ to_ := x, count := wrapInt32 ((n : Int) + 1),
                          probabilityNormalized := 1 },
                        { to_ := y, count := 1, probabilityNormalized := 1 }]),
                   (y, [])] } := by
  have hyx : ¬ y = x := fun h => hxy h.symm
  rw [build_append_singleton, build_replicate]
  simp [MarkovChain.addElement, withState, find, modify, recordTransition, hxy, hyx]

/-- Claim C4, counterexample.  After `2^31 + 1` copies of `x` followed by `y`,
state `x` has the counts `-2^31` (overflowed) and `1`, whose sum is
`1 - 2^31`: the probability of `x -> x` is above `1` and that of `x -> y` is
negative. -/
theorem C4_probability_out_of_range_counterexample :
    (build (List.replicate (2147483647 + 2) "x" ++ ["y"]))._normalizeProbabilities.states =
      [("x", [{ to_ := "x", count := -2147483648,
                probabilityNormalized := 2147483648 / 2147483647 },
              { to_ := "y", count := 1, probabilityNormalized := -1 / 2147483647 }]),
       ("y", [])] ∧
    ¬ ((2147483648 / 2147483647 : ℚ) ≤ 1) ∧ ¬ ((0 : ℚ) ≤ -1 / 2147483647) := by
  have hw : wrapInt32 (((2147483647 : Nat) : Int) + 1) = -2147483648 := by
    norm_num [wrapInt32]
  refine ⟨?_, by norm_num, by norm_num⟩
  rw [build_replicate_then 2147483647 (by decide), hw]
  simp only [MarkovChain._normalizeProbabilities, normalizeTransitions, sumCounts,
    List.map_cons, List.map_nil, List.foldl_cons, List.foldl_nil]
  norm_num

/-- Claim C4, amended.  After `_normalizeProbabilities` on a model built by
`addElement` calls, the probability of every transition `t` of every state is
`t.count` divided by the sum of the counts of the transitions of that state,
in exact rational arithmetic, whenever that sum is not `0`; and when no
adjacent pair occurs `2^31` times or more in the training sequence, the sum is
not `0` and the probability lies in `[0, 1]`.  Keys, destinations and counts
are those of the model before normalization.  On `[a,b,a,c,a,b]` this gives
`a -> b` probability `2/3`, `a -> c` probability `1/3`, and probability `1`
for `b -> a` and `c -> a`. -/
theorem C4_probability_is_count_over_sum (s : List T) :
    (∀ e ∈ (build s)._normalizeProbabilities.states, ∀ t ∈ e.2, countSum e.2 ≠ 0 →
      t.probabilityNormalized = (t.count : ℚ) / (countSum e.2 : ℚ)) ∧
    (PairsBounded s → ∀ e ∈ (build s)._normalizeProbabilities.states, ∀ t ∈ e.2,
      countSum e.2 ≠ 0 ∧
      t.probabilityNormalized = (t.count : ℚ) / (countSum e.2 : ℚ) ∧
      0 ≤ t.probabilityNormalized ∧ t.probabilityNormalized ≤ 1) ∧
    skeleton (build s)._normalizeProbabilities.states = skeleton (build s).states ∧
    (build ["a", "b", "a", "c", "a", "b"])._normalizeProbabilities.states =
      [("a", [{ to_ := "b", count := 2, probabilityNormalized := 2 / 3 },
              { to_ := "c", count := 1, probabilityNormalized := 1 / 3 }]),
       ("b", [{ to_ := "a", count := 1, probabilityNormalized := 1 }]),
       ("c", [{ to_ := "a", count := 1, probabilityNormalized := 1 }])] := by
  have heq : ∀ e ∈ (build s)._normalizeProbabilities.states, ∀ t ∈ e.2,
      t.probabilityNormalized = (t.count : ℚ) / (countSum e.2 : ℚ) := by
    intro e he t ht
    obtain ⟨e0, he0, rfl⟩ := mem_normalize_states he
    obtain ⟨t0, ht0, rfl⟩ := mem_normalizeTransitions ht
    simp only [countSum_normalizeTransitions]
  refine ⟨fun e he t ht _ => heq e he t ht, ?_, skeleton_normalize _, scenario_normalized⟩
  intro hbd e he t ht
  have hb := built_build s
  have hp := heq e he t ht
  obtain ⟨e0, he0, rfl⟩ := mem_normalize_states he
  obtain ⟨t0, ht0, rfl⟩ := mem_normalizeTransitions ht
  have hpos : (1 : Int) ≤ t0.count := hb.count_pos hbd he0 ht0
  have hle : t0.count ≤ countSum e0.2 :=
    le_countSum (fun u hu => hb.count_pos hbd he0 hu) ht0
  have hposq : (0 : ℚ) < (t0.count : ℚ) := by exact_mod_cast (by omega : (0 : Int) < t0.count)
  have hleq : (t0.count : ℚ) ≤ (countSum e0.2 : ℚ) := by exact_mod_cast hle
  have hsum : (0 : ℚ) < (countSum e0.2 : ℚ) := lt_of_lt_of_le hposq hleq
  simp only [countSum_normalizeTransitions] at hp ⊢
  refine ⟨by omega, hp, ?_, ?_⟩
  · exact div_nonneg hposq.le hsum.le
  · exact (div_le_one hsum).2 hleq

/-- An instance of the amended claim C4: the transition `a -> b` of the
normalized scenario. -/
theorem C4_probability_is_count_over_sum_witness :
    PairsBounded scenario ∧
    (("a", [{ to_ := "b", count := 2, probabilityNormalized := 2 / 3 },
            { to_ := "c", count := 1, probabilityNormalized := 1 / 3 }]) :
        String × List (Transition String)) ∈
      (build scenario)._normalizeProbabilities.states ∧
    countSum
      [({ to_ := "b", count := 2, probabilityNormalized := 2 / 3 } : Transition String),
       { to_ := "c", count := 1, probabilityNormalized := 1 / 3 }] ≠ 0 ∧
    (2 / 3 : ℚ) = ((2 : Int) : ℚ) / ((countSum
      [({ to_ := "b", count := 2, probabilityNormalized := 2 / 3 } : Transition String),
       { to_ := "c", count := 1, probabilityNormalized := 1 / 3 }] : Int) : ℚ) ∧
    (0 : ℚ) ≤ 2 / 3 ∧ (2 / 3 : ℚ) ≤ 1 := by
  have hmem : (("a", [{ to_ := "b", count := 2, probabilityNormalized := 2 / 3 },
            { to_ := "c", count := 1, probabilityNormalized := 1 / 3 }]) :
        String × List (Transition String)) ∈
      (build scenario)._normalizeProbabilities.states := by
    rw [show (build scenario)._normalizeProbabilities.states = _ from scenario_normalized]
    exact List.mem_cons_self _ _
  exact ⟨pairsBounded_scenario, hmem,
    (C4_probability_is_count_over_sum scenario).2.1 pairsBounded_scenario _ hmem
      { to_ := "b", count := 2, probabilityNormalized := 2 / 3 } (List.mem_cons_self _ _)⟩

/-- In a normalized model built from a sequence in which no pair occurs `2^31`
times or more, the probabilities of a non-empty transition vector sum to
one. -/
theorem Built.sum_probabilities {s : List T} {m : MarkovChain T} (h : Built s m)
    (hbd : PairsBounded s) :
    ∀ e ∈ m._normalizeProbabilities.states, e.2 ≠ [] →
      (e.2.map fun t => t.probabilityNormalized).sum = 1 := by
  intro e he hne
  obtain ⟨e0, he0, rfl⟩ := mem_normalize_states he
  simp only [] at hne ⊢
  have hne0 : e0.2 ≠ [] := fun h0 => hne (by simp [normalizeTransitions, h0])
  obtain ⟨t0, ht0⟩ := List.exists_mem_of_ne_nil _ hne0
  have hpos : (1 : Int) ≤ t0.count := h.count_pos hbd he0 ht0
  have hle : t0.count ≤ countSum e0.2 :=
    le_countSum (fun u hu => h.count_pos hbd he0 hu) ht0
  have hsum : (countSum e0.2 : ℚ) ≠ 0 := by
    have : (0 : Int) < countSum e0.2 := by omega
    exact_mod_cast this.ne.symm
  rw [sum_probabilities_normalize]
  exact div_self hsum

/-- The normalized model after `2^32 + 1` copies of one token: the only count
is `0`, and so is the probability `0 / 0` of the model. -/
theorem overflow_twice_normalized :
    (build (List.replicate (4294967295 + 2) "x"))._normalizeProbabilities.states =
      [("x", [{ to_ := "x", count := 0, probabilityNormalized := 0 }])] := by
  have hw : wrapInt32 (((4294967295 : Nat) : Int) + 1) = 0 := by
    norm_num [wrapInt32]
  rw [build_replicate, hw]
  simp [MarkovChain._normalizeProbabilities, normalizeTransitions, sumCounts]

/-- Claim C5, counterexample.  After `2^32 + 1` copies of `x` the only count
is `0` (overflowed twice), the divisor `sum` of the normalization is `0`, and
the probabilities of the non-empty vector of state `x` do not sum to `1`.
The probability `0 / 0` is `0` here and a NaN in the code. -/
theorem C5_zero_divisor_counterexample :
    (build (List.replicate (4294967295 + 2) "x"))._normalizeProbabilities.states =
      [("x", [{ to_ := "x", count := 0, probabilityNormalized := 0 }])] ∧
    sumCounts [({ to_ := "x", count := 0, probabilityNormalized := 1 } : Transition String)]
      = 0 ∧
    ([({ to_ := "x", count := 0, probabilityNormalized := 0 } : Transition String)].map
      fun t => t.probabilityNormalized).sum ≠ 1 := by
  exact ⟨overflow_twice_normalized, by simp [sumCounts], by simp⟩

/-- Claim C5, amended.  After `_normalizeProbabilities` on a model built by
`addElement` calls from a sequence in which no adjacent pair occurs `2^31`
times or more, the probabilities of the transitions of every state that has at
least one transition sum to `1`, in exact rational arithmetic. -/
theorem C5_probabilities_sum_to_one (s : List T) (hbd : PairsBounded s) :
    ∀ e ∈ (build s)._normalizeProbabilities.states, e.2 ≠ [] →
      (e.2.map fun t => t.probabilityNormalized).sum = 1 := by
  intro e he hne
  have hb := built_build s
  exact hb.sum_probabilities hbd e he hne

/-- An instance of the amended claim C5: state `a` of the normalized scenario,
with probabilities `2/3` and `1/3`. -/
theorem C5_probabilities_sum_to_one_witness :
    PairsBounded scenario ∧
    (("a", [{ to_ := "b", count := 2, probabilityNormalized := 2 / 3 },
            { to_ := "c", count := 1, probabilityNormalized := 1 / 3 }]) :
        String × List (Transition String)) ∈
      (build scenario)._normalizeProbabilities.states ∧
    ([{ to_ := "b", count := 2, probabilityNormalized := 2 / 3 },
      { to_ := "c", count := 1, probabilityNormalized := 1 / 3 }] :
        List (Transition String)) ≠ [] ∧
    ([{ to_ := "b", count := 2, probabilityNormalized := 2 / 3 },
      { to_ := "c", count := 1, probabilityNormalized := 1 / 3 }].map
        fun t : Transition String => t.probabilityNormalized).sum = 1 := by
  have hmem : (("a", [{ to_ := "b", count := 2, probabilityNormalized := 2 / 3 },
            { to_ := "c", count := 1, probabilityNormalized := 1 / 3 }]) :
        String × List (Transition String)) ∈
      (build scenario)._normalizeProbabilities.states := by
    rw [show (build scenario)._normalizeProbabilities.states = _ from scenario_normalized]
    exact List.mem_cons_self _ _
  exact ⟨pairsBounded_scenario, hmem, List.cons_ne_nil _ _,
    C5_probabilities_sum_to_one scenario pairsBounded_scenario _ hmem (List.cons_ne_nil _ _)⟩

/-- Claim C6.  The method `_normalizeProbabilities` is idempotent: on every
model, a second call leaves the whole model, and so every probability, as the
first call left it. -/
theorem C6_normalize_idempotent (m : MarkovChain T) :
    m._normalizeProbabilities._normalizeProbabilities = m._normalizeProbabilities := by
  simp [MarkovChain._normalizeProbabilities, Function.comp_def, normalizeTransitions_idem]

/-! ## The generation loop -/

theorem generateLoop_neg (R : Nat) (rand : Nat → Nat) (st : StateMap T) {itemCount : Int}
    (h : itemCount < 0) (calls : Nat) (cur : T) (gen : List T) :
    generateLoop R rand st itemCount calls cur gen = .ok gen := by
  rw [generateLoop]
  simp [not_le.2 h]

theorem generateLoop_missing (R : Nat) (rand : Nat → Nat) {st : StateMap T} {itemCount : Int}
    (h : 0 ≤ itemCount) (calls : Nat) {cur : T} (gen : List T) (hf : find cur st = none) :
    generateLoop R rand st itemCount calls cur gen = .error .outOfRange := by
  rw [generateLoop]
  simp [h, hf]

theorem generateLoop_deadEnd (R : Nat) (rand : Nat → Nat) {st : StateMap T} {itemCount : Int}
    (h : 0 ≤ itemCount) (calls : Nat) {cur : T} (gen : List T) (hf : find cur st = some []) :
    generateLoop R rand st itemCount calls cur gen = .ok gen := by
  rw [generateLoop]
  simp [h, hf]

theorem generateLoop_select (R : Nat) (rand : Nat → Nat) {st : StateMap T} {itemCount : Int}
    (h : 0 ≤ itemCount) (calls : Nat) {cur : T} (gen : List T)
    {ts : List (Transition T)} (hf : find cur st = some ts) (hne : ts ≠ [])
    {t : Transition T} (hp : pick ((rand calls : ℚ) / (R : ℚ)) 0 ts = some t) :
    generateLoop R rand st itemCount calls cur gen =
      generateLoop R rand st (itemCount - 1) (calls + 1) t.to_ (gen ++ [t.to_]) := by
  rw [generateLoop]
  simp [h, hf, hne, hp]

theorem generateLoop_skip (R : Nat) (rand : Nat → Nat) {st : StateMap T} {itemCount : Int}
    (h : 0 ≤ itemCount) (calls : Nat) {cur : T} (gen : List T)
    {ts : List (Transition T)} (hf : find cur st = some ts) (hne : ts ≠ [])
    (hp : pick ((rand calls : ℚ) / (R : ℚ)) 0 ts = none) :
    generateLoop R rand st itemCount calls cur gen =
      generateLoop R rand st (itemCount - 1) (calls + 1) cur gen := by
  rw [generateLoop]
  simp [h, hf, hne, hp]

theorem pick_mem {r : ℚ} {ts : List (Transition T)} {acc : ℚ} {t : Transition T}
    (h : pick r acc ts = some t) : t ∈ ts := by
  induction ts generalizing acc with
  | nil => simp [pick] at h
  | cons u ts ih =>
    by_cases hlt : r < acc + u.probabilityNormalized
    · simp [pick, hlt] at h
      simp [h]
    · simp only [pick, hlt, if_false] at h
      exact List.mem_cons_of_mem _ (ih h)

/-- The loop of `generate`, started at a key of a closed map, returns the
tokens generated so far followed by a walk from the current state that is
no longer than the number of iterations the counter allows. -/
theorem generateLoop_spec (R : Nat) (rand : Nat → Nat) {st : StateMap T} (hcl : Closed st)
    (n : Nat) : ∀ (itemCount : Int) (calls : Nat) (cur : T) (gen : List T),
      (itemCount + 1).toNat = n → cur ∈ keys st →
      ∃ path, generateLoop R rand st itemCount calls cur gen = .ok (gen ++ path) ∧
        IsWalk st cur path ∧ path.length ≤ n := by
  induction n with
  | zero =>
    intro itemCount calls cur gen hn _
    refine ⟨[], ?_, trivial, le_refl _⟩
    rw [generateLoop_neg R rand st (by omega), List.append_nil]
  | succ n ih =>
    intro itemCount calls cur gen hn hcur
    have h0 : 0 ≤ itemCount := by omega
    have hn1 : (itemCount - 1 + 1).toNat = n := by omega
    obtain ⟨ts, hts⟩ := find_of_mem_keys hcur
    by_cases hne : ts = []
    · subst hne
      refine ⟨[], ?_, trivial, Nat.zero_le _⟩
      rw [generateLoop_deadEnd R rand h0 calls gen hts, List.append_nil]
    · cases hp : pick ((rand calls : ℚ) / (R : ℚ)) 0 ts with
      | none =>
        obtain ⟨path, h1, h2, h3⟩ := ih (itemCount - 1) (calls + 1) cur gen hn1 hcur
        exact ⟨path, by rw [generateLoop_skip R rand h0 calls gen hts hne hp, h1], h2,
          Nat.le_succ_of_le h3⟩
      | some t =>
        have htm : t ∈ ts := pick_mem hp
        have hkey : t.to_ ∈ keys st := hcl _ (mem_of_find hts) t htm
        obtain ⟨path, h1, h2, h3⟩ :=
          ih (itemCount - 1) (calls + 1) t.to_ (gen ++ [t.to_]) hn1 hkey
        refine ⟨t.to_ :: path, ?_, ⟨?_, h2⟩, Nat.succ_le_succ h3⟩
        · rw [generateLoop_select R rand h0 calls gen hts hne hp, h1]
          simp
        · simp only [outgoing, hts, Option.getD_some]
          exact List.mem_map.2 ⟨t, htm, rfl⟩

theorem toInt32_le (n : Nat) : (toInt32 n + 1).toNat ≤ n + 1 := by
  unfold toInt32
  have := Nat.mod_le n (2 ^ 32)
  split <;> omega

theorem closed_normalize {s : List T} {m : MarkovChain T} (h : Built s m) :
    Closed m._normalizeProbabilities.states := by
  intro e he t ht
  obtain ⟨e0, he0, rfl⟩ := mem_normalize_states he
  obtain ⟨t0, ht0, rfl⟩ := mem_normalizeTransitions ht
  rw [keys_normalize]
  have hdest : t0.to_ ∈ keys m.states := h.dest_mem_keys he0 ht0
  exact hdest

theorem startState_ok (rand : Nat → Nat) {st : StateMap T} (hne : st ≠ []) :
    ∃ start, startState rand st = .ok start ∧ start ∈ keys st := by
  have hlen : st.length ≠ 0 := fun h => hne (List.length_eq_zero.1 h)
  have hlt : rand 0 % st.length < st.length := Nat.mod_lt _ (Nat.pos_of_ne_zero hlen)
  refine ⟨(st[rand 0 % st.length]).1, ?_, ?_⟩
  · simp [startState, hlen, List.getElem?_eq_getElem hlt]
  · exact List.mem_map.2 ⟨_, List.getElem_mem hlt, rfl⟩

theorem build_states_ne_nil {s : List T} (hs : s ≠ []) : (build s).states ≠ [] := by
  obtain ⟨x, hx⟩ := List.exists_mem_of_ne_nil s hs
  have := ((built_build s).keys_iff x).2 hx
  intro h
  simp [h, keys] at this

theorem normalize_states_ne_nil {m : MarkovChain T} (h : m.states ≠ []) :
    m._normalizeProbabilities.states ≠ [] := by
  simpa [MarkovChain._normalizeProbabilities] using h

/-- On a model built from a non-empty training sequence `generate` returns
normally: its result is a walk from the start state of length at most
`maxLength + 1`. -/
theorem generate_spec (R : Nat) (rand : Nat → Nat) {s : List T} (hs : s ≠ []) (maxLength : Nat) :
    ∃ start path, startState rand (build s)._normalizeProbabilities.states = .ok start ∧
      ((build s).generate R rand maxLength).1 = .ok path ∧
      IsWalk (build s)._normalizeProbabilities.states start path ∧
      path.length ≤ (toInt32 maxLength + 1).toNat := by
  have hb := built_build s
  obtain ⟨start, hst, hkey⟩ :=
    startState_ok rand (normalize_states_ne_nil (build_states_ne_nil hs))
  obtain ⟨path, h1, h2, h3⟩ := generateLoop_spec R rand (closed_normalize hb) _
    (toInt32 maxLength) 1 start [] rfl hkey
  refine ⟨start, path, hst, ?_, h2, h3⟩
  simp only [MarkovChain.generate, hst, h1, List.nil_append]

/-! ## The scenario `[a,b,a,c,a,b]` -/

theorem scenario_states :
    (build scenario)._normalizeProbabilities.states =
      [("a", [{ to_ := "b", count := 2, probabilityNormalized := 2 / 3 },
              { to_ := "c", count := 1, probabilityNormalized := 1 / 3 }]),
       ("b", [{ to_ := "a", count := 1, probabilityNormalized := 1 }]),
       ("c", [{ to_ := "a", count := 1, probabilityNormalized := 1 }])] :=
  scenario_normalized

/-- From state `b` of the scenario, with a counter of `3` and every draw
below `2/3`, the loop appends `a, b, a, b`. -/
theorem scenario_loop (R : Nat) (rand : Nat → Nat)
    (hr : ∀ i, 1 ≤ i → (rand i : ℚ) / (R : ℚ) < 2 / 3) (gen : List String) :
    generateLoop R rand (build scenario)._normalizeProbabilities.states 3 1 "b" gen =
      .ok (gen ++ ["a", "b", "a", "b"]) := by
  rw [scenario_states]
  have hlt1 : ∀ i, 1 ≤ i → (rand i : ℚ) / (R : ℚ) < 1 := fun i hi =>
    lt_trans (hr i hi) (by norm_num)
  have fa : find "a" ([("a", [{ to_ := "b", count := 2, probabilityNormalized := 2 / 3 },
              { to_ := "c", count := 1, probabilityNormalized := 1 / 3 }]),
       ("b", [{ to_ := "a", count := 1, probabilityNormalized := 1 }]),
       ("c", [{ to_ := "a", count := 1, probabilityNormalized := 1 }])] : StateMap String) =
      some [{ to_ := "b", count := 2, probabilityNormalized := 2 / 3 },
              { to_ := "c", count := 1, probabilityNormalized := 1 / 3 }] := by
    simp [find]
  have fb : find "b" ([("a", [{ to_ := "b", count := 2, probabilityNormalized := 2 / 3 },
              { to_ := "c", count := 1, probabilityNormalized := 1 / 3 }]),
       ("b", [{ to_ := "a", count := 1, probabilityNormalized := 1 }]),
       ("c", [{ to_ := "a", count := 1, probabilityNormalized := 1 }])] : StateMap String) =
      some [{ to_ := "a", count := 1, probabilityNormalized := 1 }] := by
    simp [find]
  have pa : ∀ i, 1 ≤ i → pick ((rand i : ℚ) / (R : ℚ)) 0
      [({ to_ := "b", count := 2, probabilityNormalized := 2 / 3 } : Transition String),
        { to_ := "c", count := 1, probabilityNormalized := 1 / 3 }] =
      some { to_ := "b", count := 2, probabilityNormalized := 2 / 3 } := by
    intro i hi
    simp [pick, hr i hi]
  have pb : ∀ i, 1 ≤ i → pick ((rand i : ℚ) / (R : ℚ)) 0
      [({ to_ := "a", count := 1, probabilityNormalized := 1 } : Transition String)] =
      some { to_ := "a", count := 1, probabilityNormalized := 1 } := by
    intro i hi
    simp [pick, hlt1 i hi]
  rw [generateLoop_select R rand (by norm_num) 1 gen fb (by simp) (pb 1 (by norm_num))]
  rw [generateLoop_select R rand (by norm_num) 2 _ fa (by simp) (pa 2 (by norm_num))]
  rw [generateLoop_select R rand (by norm_num) 3 _ fb (by simp) (pb 3 (by norm_num))]
  rw [generateLoop_select R rand (by norm_num) 4 _ fa (by simp) (pa 4 (by norm_num))]
  rw [generateLoop_neg R rand _ (by norm_num)]
  simp

/-- The scenario with start index `1` and every transition draw below `2/3`:
the start state is `b` and `generate(3)` returns `a, b, a, b`. -/
theorem scenario_generate (R : Nat) (rand : Nat → Nat) (h0 : rand 0 % 3 = 1)
    (hr : ∀ i, 1 ≤ i → (rand i : ℚ) / (R : ℚ) < 2 / 3) :
    startState rand (build scenario)._normalizeProbabilities.states = .ok "b" ∧
    ((build scenario).generate R rand 3).1 = .ok ["a", "b", "a", "b"] := by
  have hs : startState rand (build scenario)._normalizeProbabilities.states = .ok "b" := by
    rw [scenario_states]
    simp [startState, h0]
  refine ⟨hs, ?_⟩
  have h3 : toInt32 3 = 3 := by decide
  simp only [MarkovChain.generate, hs, h3]
  rw [scenario_loop R rand hr]
  rfl

theorem halfDraws_lt (i : Nat) (hi : 1 ≤ i) :
    (halfDraws i : ℚ) / (randMax31 : ℚ) < 2 / 3 := by
  have : halfDraws i = 1073741823 := by
    unfold halfDraws
    rw [if_neg (by omega)]
  rw [this]
  norm_num [randMax31]

/-! ## Claims about `generate` -/

omit [DecidableEq T] in
theorem adjacent_cons_cons (x y : T) (r : List T) :
    adjacent (x :: y :: r) = (x, y) :: adjacent (y :: r) := by
  simp [adjacent]

theorem isWalk_adjacent {st : StateMap T} {cur : T} {path : List T} (h : IsWalk st cur path) :
    ∀ p ∈ adjacent (cur :: path), p.2 ∈ (outgoing st p.1).map fun t => t.to_ := by
  induction path generalizing cur with
  | nil => simp [adjacent]
  | cons y rest ih =>
    intro p hp
    rw [adjacent_cons_cons] at hp
    rcases List.mem_cons.1 hp with h1 | h1
    · subst h1
      exact h.1
    · exact ih h.2 p h1

omit [DecidableEq T] in
theorem adjacent_subset_cons (cur : T) (path : List T) :
    ∀ p ∈ adjacent path, p ∈ adjacent (cur :: path) := by
  intro p hp
  cases path with
  | nil => simp [adjacent] at hp
  | cons y rest =>
    rw [adjacent_cons_cons]
    exact List.mem_cons_of_mem _ hp

theorem outgoing_normalize (m : MarkovChain T) (A : T) :
    outgoing m._normalizeProbabilities.states A = normalizeTransitions (outgoing m.states A) := by
  unfold outgoing
  rw [find_normalize]
  cases find A m.states with
  | none => simp [normalizeTransitions]
  | some ts => simp

theorem dests_normalizeTransitions (ts : List (Transition T)) :
    (normalizeTransitions ts).map (fun t => t.to_) = ts.map fun t => t.to_ := by
  simp [normalizeTransitions_eq, Function.comp_def]

/-- A step of a walk over the normalized model of `s` is a transition stored
by training, its pair occurs in `s`, and its count is at least one when no
pair occurs `2^31` times or more in `s`. -/
theorem Built.step_trained {s : List T} {m : MarkovChain T} (h : Built s m) {x y : T}
    (hy : y ∈ (outgoing m._normalizeProbabilities.states x).map fun t => t.to_) :
    (∃ ts, find x m.states = some ts ∧
      ∃ t ∈ ts, t.to_ = y ∧ (PairsBounded s → 1 ≤ t.count)) ∧
      (x, y) ∈ adjacent s := by
  rw [outgoing_normalize, dests_normalizeTransitions] at hy
  obtain ⟨t, ht, rfl⟩ := List.mem_map.1 hy
  unfold outgoing at ht
  cases hf : find x m.states with
  | none => simp [hf] at ht
  | some ts =>
    rw [hf] at ht
    have hmem : t ∈ ts := ht
    have he : (x, ts) ∈ m.states := mem_of_find hf
    refine ⟨⟨ts, rfl, t, hmem, rfl, fun hbd => h.count_pos hbd he hmem⟩, ?_⟩
    exact mem_adjacent_of_adjacentCount_ne_zero (h.stored_pair he hmem).1

theorem generate_build_nil (R : Nat) (rand : Nat → Nat) (n : Nat) :
    ((build ([] : List T)).generate R rand n).1 = .error .moduloByZero := by
  simp [MarkovChain.generate, build, MarkovChain.empty, MarkovChain._normalizeProbabilities,
    startState]

/-- Claim C7.  For every non-empty model built by `addElement` calls, every
`maxLength` and every stream of random draws, `generate(maxLength)` returns a
sequence, and its length is at most `maxLength + 1`. -/
theorem C7_generate_length_bound (R : Nat) (rand : Nat → Nat) (s : List T) (hs : s ≠ [])
    (maxLength : Nat) :
    ∃ out, ((build s).generate R rand maxLength).1 = .ok out ∧
      out.length ≤ maxLength + 1 := by
  obtain ⟨_, path, _, h2, _, h4⟩ := generate_spec R rand hs maxLength
  exact ⟨path, h2, le_trans h4 (toInt32_le maxLength)⟩

/-- An instance of claim C7 on the scenario with `maxLength = 3`. -/
theorem C7_generate_length_bound_witness :
    scenario ≠ [] ∧
    ∃ out, ((build scenario).generate randMax31 halfDraws 3).1 = .ok out ∧ out.length ≤ 3 + 1 :=
  ⟨by decide, C7_generate_length_bound randMax31 halfDraws scenario (by decide) 3⟩

/-! ## Draws below one always select a transition -/

theorem pick_isSome {r : ℚ} {ts : List (Transition T)} {acc : ℚ} (hacc : acc ≤ r)
    (hr : r < acc + (ts.map fun t => t.probabilityNormalized).sum) :
    ∃ t, pick r acc ts = some t := by
  induction ts generalizing acc with
  | nil =>
    simp only [List.map_nil, List.sum_nil, add_zero] at hr
    exact absurd hr (not_lt.2 hacc)
  | cons u ts ih =>
    by_cases hlt : r < acc + u.probabilityNormalized
    · exact ⟨u, by simp [pick, hlt]⟩
    · simp only [pick, hlt, if_false]
      apply ih (not_lt.1 hlt)
      simpa [add_assoc] using hr

/-- With every draw in `[0, 1)` and probabilities that sum to one, each
iteration of the loop appends a token, so that the loop stops early only in a
state without transitions. -/
theorem generateLoop_full (R : Nat) (rand : Nat → Nat) {st : StateMap T} (hcl : Closed st)
    (hsum : ∀ e ∈ st, e.2 ≠ [] → (e.2.map fun t => t.probabilityNormalized).sum = 1)
    (hdraw : ∀ i, rand i < R) (n : Nat) :
    ∀ (itemCount : Int) (calls : Nat) (cur : T) (gen : List T),
      (itemCount + 1).toNat = n → cur ∈ keys st →
      ∃ path, generateLoop R rand st itemCount calls cur gen = .ok (gen ++ path) ∧
        (path.length = n ∨ outgoing st (path.getLastD cur) = []) := by
  induction n with
  | zero =>
    intro itemCount calls cur gen hn _
    refine ⟨[], ?_, Or.inl rfl⟩
    rw [generateLoop_neg R rand st (by omega), List.append_nil]
  | succ n ih =>
    intro itemCount calls cur gen hn hcur
    have h0 : 0 ≤ itemCount := by omega
    have hn1 : (itemCount - 1 + 1).toNat = n := by omega
    obtain ⟨ts, hts⟩ := find_of_mem_keys hcur
    by_cases hne : ts = []
    · subst hne
      refine ⟨[], ?_, Or.inr ?_⟩
      · rw [generateLoop_deadEnd R rand h0 calls gen hts, List.append_nil]
      · simp [outgoing, hts]
    · have hRpos : (0 : ℚ) < (R : ℚ) := by
        exact_mod_cast Nat.lt_of_le_of_lt (Nat.zero_le _) (hdraw 0)
      have hr0 : (0 : ℚ) ≤ (rand calls : ℚ) / (R : ℚ) :=
        div_nonneg (Nat.cast_nonneg _) hRpos.le
      have hr1 : (rand calls : ℚ) / (R : ℚ) < 1 := by
        rw [div_lt_one hRpos]
        exact_mod_cast hdraw calls
      have hs1 := hsum _ (mem_of_find hts) hne
      simp only [] at hs1
      have hr2 : (rand calls : ℚ) / (R : ℚ) <
          0 + (ts.map fun t => t.probabilityNormalized).sum := by
        rw [hs1, zero_add]
        exact hr1
      obtain ⟨t, hp⟩ := pick_isSome hr0 hr2
      have htm : t ∈ ts := pick_mem hp
      have hkey : t.to_ ∈ keys st := hcl _ (mem_of_find hts) t htm
      obtain ⟨path, h1, h2⟩ := ih (itemCount - 1) (calls + 1) t.to_ (gen ++ [t.to_]) hn1 hkey
      refine ⟨t.to_ :: path, ?_, ?_⟩
      · rw [generateLoop_select R rand h0 calls gen hts hne hp, h1]
        simp
      · rcases h2 with h2 | h2
        · exact Or.inl (by simp [h2])
        · exact Or.inr (by rw [List.getLastD_cons]; exact h2)

theorem toInt32_of_lt {n : Nat} (h : n < 2 ^ 31) : toInt32 n = (n : Int) := by
  unfold toInt32
  have h2 : n % 2 ^ 32 = n := Nat.mod_eq_of_lt (by omega)
  rw [h2, if_pos h]

/-- In exact arithmetic, for `maxLength < 2^31`, draws `rand() < RAND_MAX`,
that is draws in `[0, 1)`, and a training sequence in which no pair occurs
`2^31` times or more, `generate` on a non-empty built model returns exactly
`maxLength + 1` tokens unless the walk ends in a state without transitions. -/
theorem generate_full_length_or_deadEnd (R : Nat) (rand : Nat → Nat) (hdraw : ∀ i, rand i < R)
    {s : List T} (hs : s ≠ []) (hbd : PairsBounded s) {maxLength : Nat}
    (hmax : maxLength < 2 ^ 31) :
    ∃ start path, startState rand (build s)._normalizeProbabilities.states = .ok start ∧
      ((build s).generate R rand maxLength).1 = .ok path ∧
      (path.length = maxLength + 1 ∨
        outgoing (build s)._normalizeProbabilities.states (path.getLastD start) = []) := by
  have hb := built_build s
  obtain ⟨start, hst, hkey⟩ :=
    startState_ok rand (normalize_states_ne_nil (build_states_ne_nil hs))
  have hn : (toInt32 maxLength + 1).toNat = maxLength + 1 := by
    rw [toInt32_of_lt hmax]
    omega
  obtain ⟨path, h1, h2⟩ := generateLoop_full R rand (closed_normalize hb)
    (hb.sum_probabilities hbd) hdraw _ (toInt32 maxLength) 1 start [] hn hkey
  refine ⟨start, path, hst, ?_, h2⟩
  simp only [MarkovChain.generate, hst, h1, List.nil_append]

/-- Claim C8, the code at the failing input.  The model is trained on
`[a, a]`, so that its only state `a` has the transition `a -> a` and no state
is a dead end.  When `rand()` returns `RAND_MAX`, the draw is `1`, the test
`random < sum` fails for the only transition, and `generate(0)` returns the
empty sequence instead of one token. -/
theorem C8_draw_one_skips_token :
    (build ["a", "a"])._normalizeProbabilities.states =
      [("a", [{ to_ := "a", count := 1, probabilityNormalized := 1 }])] ∧
    (∀ i, maxDraws i ≤ randMax31) ∧
    ((build ["a", "a"]).generate randMax31 maxDraws 0).1 = .ok [] := by
  have hst : (build ["a", "a"])._normalizeProbabilities.states =
      [("a", [{ to_ := "a", count := 1, probabilityNormalized := 1 }])] := by
    have h : (build ["a", "a"]).states =
        [("a", [{ to_ := "a", count := 1, probabilityNormalized := 1 }])] := by decide
    simp only [MarkovChain._normalizeProbabilities, h, normalizeTransitions, sumCounts,
      List.map_cons, List.map_nil, List.foldl_cons, List.foldl_nil]
    norm_num
  refine ⟨hst, fun i => Nat.le_refl _, ?_⟩
  have hs : startState maxDraws (build ["a", "a"])._normalizeProbabilities.states = .ok "a" := by
    rw [hst]
    simp [startState, Nat.mod_one]
  have h0 : toInt32 0 = 0 := by decide
  have hf : find "a" ([("a", [{ to_ := "a", count := 1, probabilityNormalized := 1 }])] :
      StateMap String) = some [{ to_ := "a", count := 1, probabilityNormalized := 1 }] := by
    simp [find]
  have hp : pick ((maxDraws 1 : ℚ) / (randMax31 : ℚ)) 0
      [({ to_ := "a", count := 1, probabilityNormalized := 1 } : Transition String)] = none := by
    norm_num [pick, maxDraws, randMax31]
  simp only [MarkovChain.generate, hs, h0]
  rw [hst, generateLoop_skip randMax31 maxDraws (le_refl _) 1 [] hf (by simp) hp,
    generateLoop_neg randMax31 maxDraws _ (by norm_num)]

/-- Claim C9, counterexample.  The model is trained on `2^31 + 1` copies of
`x`, so that the count stored on `x -> x` is `-2^31`.  With draws `0`,
`generate(1)` returns `x, x`, whose consecutive pair `(x, x)` is a stored
transition whose count is not at least one. -/
theorem C9_pair_count_counterexample :
    ((build (List.replicate (2147483647 + 2) "x")).generate randMax31 (fun _ => 0) 1).1 =
      .ok ["x", "x"] ∧
    ("x", "x") ∈ adjacent ["x", "x"] ∧
    find "x" (build (List.replicate (2147483647 + 2) "x")).states =
      some [{ to_ := "x", count := -2147483648, probabilityNormalized := 1 }] ∧
    ¬ (1 ≤ (-2147483648 : Int)) := by
  have hw : wrapInt32 (((2147483647 : Nat) : Int) + 1) = -2147483648 := by
    norm_num [wrapInt32]
  rw [build_replicate, hw]
  have hst : (⟨some "x", [("x", [{ to_ := "x", count := -2147483648,
                                    probabilityNormalized := 1 }])]⟩ :
      MarkovChain String)._normalizeProbabilities.states =
      [("x", [{ to_ := "x", count := -2147483648, probabilityNormalized := 1 }])] := by
    simp only [MarkovChain._normalizeProbabilities, normalizeTransitions, sumCounts,
      List.map_cons, List.map_nil, List.foldl_cons, List.foldl_nil]
    norm_num
  have hs : startState (fun _ => 0)
      (⟨some "x", [("x", [{ to_ := "x", count := -2147483648,
                            probabilityNormalized := 1 }])]⟩ :
        MarkovChain String)._normalizeProbabilities.states = .ok "x" := by
    rw [hst]
    simp [startState]
  have h1 : toInt32 1 = 1 := by decide
  have hf : find "x"
      ([("x", [{ to_ := "x", count := -2147483648, probabilityNormalized := 1 }])] :
        StateMap String) =
      some [{ to_ := "x", count := -2147483648, probabilityNormalized := 1 }] := by
    simp [find]
  have hp : ∀ i, pick ((((fun _ => 0 : Nat → Nat) i : Nat) : ℚ) / (randMax31 : ℚ)) 0
      [({ to_ := "x", count := -2147483648, probabilityNormalized := 1 } :
        Transition String)] =
      some { to_ := "x", count := -2147483648, probabilityNormalized := 1 } := by
    intro i
    simp [pick]
  refine ⟨?_, by decide, hf, by norm_num⟩
  simp only [MarkovChain.generate, hs, h1]
  rw [hst, generateLoop_select randMax31 (fun _ => 0) (by norm_num) 1 [] hf (by simp) (hp 1),
    generateLoop_select randMax31 (fun _ => 0) (by norm_num) 2 _ hf (by simp) (hp 2),
    generateLoop_neg randMax31 (fun _ => 0) _ (by norm_num)]
  rfl

/-- Claim C9, amended.  For every training sequence `s`, every `maxLength`
and every stream of random draws: when `s` is not empty `generate` returns a
sequence, and every consecutive pair `(x, y)` of a returned sequence is a
stored transition, so that `x` is immediately followed by `y` somewhere in
`s`; the stored count is at least one when no adjacent pair occurs `2^31`
times or more in `s`. -/
theorem C9_output_pairs_are_trained (R : Nat) (rand : Nat → Nat) (s : List T)
    (maxLength : Nat) :
    (s ≠ [] → ∃ out, ((build s).generate R rand maxLength).1 = .ok out) ∧
    ∀ out, ((build s).generate R rand maxLength).1 = .ok out →
      ∀ x y, (x, y) ∈ adjacent out →
        (∃ ts, find x (build s).states = some ts ∧
          ∃ t ∈ ts, t.to_ = y ∧ (PairsBounded s → 1 ≤ t.count)) ∧
        (x, y) ∈ adjacent s := by
  constructor
  · intro hs
    obtain ⟨_, path, _, h2, _, _⟩ := generate_spec R rand hs maxLength
    exact ⟨path, h2⟩
  · intro out hout x y hxy
    by_cases hs : s = []
    · subst hs
      rw [generate_build_nil] at hout
      cases hout
    · obtain ⟨start, path, _, h2, h3, _⟩ := generate_spec R rand hs maxLength
      rw [h2] at hout
      cases hout
      have hstep := isWalk_adjacent h3 (x, y) (adjacent_subset_cons start out (x, y) hxy)
      exact (built_build s).step_trained hstep

/-- An instance of the amended claim C9 on the scenario: `generate(3)` returns
`a, b, a, b`, whose pair `(a, b)` is stored with a count of at least one and
occurs in the training sequence. -/
theorem C9_output_pairs_are_trained_witness :
    ((build scenario).generate randMax31 halfDraws 3).1 = .ok ["a", "b", "a", "b"] ∧
    ("a", "b") ∈ adjacent ["a", "b", "a", "b"] ∧
    PairsBounded scenario ∧
    (∃ ts, find "a" (build scenario).states = some ts ∧
      ∃ t ∈ ts, t.to_ = "b" ∧ 1 ≤ t.count) ∧
    ("a", "b") ∈ adjacent scenario := by
  have hgen := (scenario_generate randMax31 halfDraws (by decide) halfDraws_lt).2
  have hpair : ("a", "b") ∈ adjacent ["a", "b", "a", "b"] := by decide
  obtain ⟨⟨ts, hts, t, ht, hto, hc⟩, hadj⟩ :=
    (C9_output_pairs_are_trained randMax31 halfDraws scenario 3).2 _ hgen "a" "b" hpair
  exact ⟨hgen, hpair, pairsBounded_scenario,
    ⟨ts, hts, t, ht, hto, hc pairsBounded_scenario⟩, hadj⟩

theorem startState_eq {rand : Nat → Nat} {st : StateMap T} {start : T}
    (h : startState rand st = .ok start) :
    (keys st)[rand 0 % st.length]? = some start := by
  unfold startState at h
  by_cases hlen : st.length = 0
  · simp [hlen] at h
  · simp only [hlen, if_false] at h
    cases hget : st[rand 0 % st.length]? with
    | none => simp [hget] at h
    | some e =>
      simp only [hget, Except.ok.injEq] at h
      simp [keys, List.getElem?_map, hget, h]

/-- Claim C10, counterexample.  In the scenario with start state `b` and
transition draws of one half (`1073741823 / (2^31 - 1)`, which the code
computes as `0.5f`, and also exactly `1 / 2` with `RAND_MAX = 2`),
`generate(3)` returns `a, b, a, b`: its first token is not the start state
`b`, and the result is not `b, a, b, a`. -/
theorem C10_first_token_is_start_counterexample :
    startState halfDraws (build scenario)._normalizeProbabilities.states = .ok "b" ∧
    ((build scenario).generate randMax31 halfDraws 3).1 = .ok ["a", "b", "a", "b"] ∧
    (["a", "b", "a", "b"] : List String).head? ≠ some "b" ∧
    ((build scenario).generate randMax31 halfDraws 3).1 ≠ .ok ["b", "a", "b", "a"] ∧
    ((1 : Nat) : ℚ) / ((2 : Nat) : ℚ) = 1 / 2 ∧
    startState (fun _ => 1) (build scenario)._normalizeProbabilities.states = .ok "b" ∧
    ((build scenario).generate 2 (fun _ => 1) 3).1 = .ok ["a", "b", "a", "b"] := by
  have h1 := scenario_generate randMax31 halfDraws (by decide) halfDraws_lt
  have h2 := scenario_generate 2 (fun _ => 1) (by decide) (fun _ _ => by norm_num)
  refine ⟨h1.1, h1.2, by decide, ?_, by norm_num, h2.1, h2.2⟩
  rw [h1.2]
  intro h
  injection h with h
  exact absurd h (by decide)

/-- Claim C10, amended.  The start state is not emitted.  From every key
`start` of the map, whichever the iteration order of the map yields at index
`rand() % states.size()`, the loop of `generate` returns a sequence whose first
token, when there is one, is the destination of a transition stored on
`start`, so that `start` is immediately followed by it somewhere in the
training sequence; and whenever `generate` returns a non-empty sequence, its
first token is such a destination for the start state that was chosen.  In the
scenario, from start state `b` and with every transition draw equal to one
half, `generate(3)` returns `a, b, a, b`. -/
theorem C10_first_token_follows_start (R : Nat) (rand : Nat → Nat) (s : List T)
    (maxLength : Nat) :
    (∀ start, start ∈ keys (build s).states →
      ∃ out, generateLoop R rand (build s)._normalizeProbabilities.states
          (toInt32 maxLength) 1 start [] = .ok out ∧
        ∀ y rest, out = y :: rest →
          y ∈ (outgoing (build s).states start).map (fun t => t.to_) ∧
          (start, y) ∈ adjacent s) ∧
    (∀ out, ((build s).generate R rand maxLength).1 = .ok out → out ≠ [] →
      ∃ start, startState rand (build s)._normalizeProbabilities.states = .ok start ∧
        start ∈ keys (build s).states ∧
        ∃ y rest, out = y :: rest ∧
          y ∈ (outgoing (build s).states start).map (fun t => t.to_) ∧
          (start, y) ∈ adjacent s) ∧
    generateLoop 2 (fun _ => 1) (build scenario)._normalizeProbabilities.states 3 1 "b" [] =
      .ok ["a", "b", "a", "b"] := by
  have hb := built_build s
  have hfirst : ∀ start y, y ∈ (outgoing (build s)._normalizeProbabilities.states start).map
      (fun t => t.to_) →
      y ∈ (outgoing (build s).states start).map (fun t => t.to_) ∧ (start, y) ∈ adjacent s := by
    intro start y hy
    refine ⟨?_, (hb.step_trained hy).2⟩
    rw [outgoing_normalize, dests_normalizeTransitions] at hy
    exact hy
  refine ⟨?_, ?_, scenario_loop 2 (fun _ => 1) (fun _ _ => by norm_num) []⟩
  · intro start hstart
    have hkey : start ∈ keys (build s)._normalizeProbabilities.states := by
      rw [keys_normalize]
      exact hstart
    obtain ⟨path, h1, h2, _⟩ := generateLoop_spec R rand (closed_normalize hb) _
      (toInt32 maxLength) 1 start [] rfl hkey
    refine ⟨path, by simpa using h1, ?_⟩
    intro y rest hout
    subst hout
    exact hfirst start y h2.1
  · intro out hout hne
    by_cases hs : s = []
    · subst hs
      rw [generate_build_nil] at hout
      cases hout
    · obtain ⟨start, path, h1, h2, h3, _⟩ := generate_spec R rand hs maxLength
      rw [h2] at hout
      cases hout
      obtain ⟨start2, h4, hkey⟩ :=
        startState_ok rand (normalize_states_ne_nil (build_states_ne_nil hs))
      have hst : start2 = start := by
        rw [h1] at h4
        cases h4
        rfl
      subst hst
      rw [keys_normalize] at hkey
      cases out with
      | nil => exact absurd rfl hne
      | cons y rest =>
        obtain ⟨hy1, hy2⟩ := hfirst start2 y h3.1
        exact ⟨start2, h1, hkey, y, rest, rfl, hy1, hy2⟩

/-- An instance of the amended claim C10 on the scenario: the output
`a, b, a, b` starts with `a`, the destination of the transition `b -> a` of
the start state `b`. -/
theorem C10_first_token_follows_start_witness :
    ((build scenario).generate 2 (fun _ => 1) 3).1 = .ok ["a", "b", "a", "b"] ∧
    (["a", "b", "a", "b"] : List String) ≠ [] ∧
    "b" ∈ keys (build scenario).states ∧
    (∃ out, generateLoop 2 (fun _ => 1) (build scenario)._normalizeProbabilities.states
        (toInt32 3) 1 "b" [] = .ok out ∧
      ∀ y rest, out = y :: rest →
        y ∈ (outgoing (build scenario).states "b").map (fun t => t.to_) ∧
        ("b", y) ∈ adjacent scenario) ∧
    ∃ start, startState (fun _ => 1) (build scenario)._normalizeProbabilities.states =
        .ok start ∧
      start ∈ keys (build scenario).states ∧
      ∃ y rest, ["a", "b", "a", "b"] = y :: rest ∧
        y ∈ (outgoing (build scenario).states start).map (fun t => t.to_) ∧
        (start, y) ∈ adjacent scenario := by
  have hgen := (scenario_generate 2 (fun _ => 1) (by decide) (fun _ _ => by norm_num)).2
  have hkey : "b" ∈ keys (build scenario).states := by decide
  have h := C10_first_token_follows_start 2 (fun _ => 1) scenario 3
  exact ⟨hgen, List.cons_ne_nil _ _, hkey, h.1 "b" hkey,
    h.2.1 _ hgen (List.cons_ne_nil _ _)⟩

/-! ## The empty model, the first token and the cursor -/

/-- Claim C11, the code at the failing input.  On the model left by the
constructor, which has no state, `generate` has no guard for every
`maxLength`: line 115 evaluates `rand() % states.size()` with
`states.size() = 0`.  The result `Fault.moduloByZero` stands for that
undefined behaviour, not for an error raised by the code. -/
theorem C11_empty_model_modulo_by_zero (R : Nat) (rand : Nat → Nat) (maxLength : Nat) :
    (MarkovChain.empty : MarkovChain T)._normalizeProbabilities.states.length = 0 ∧
    startState rand (MarkovChain.empty : MarkovChain T)._normalizeProbabilities.states =
      .error .moduloByZero ∧
    ((MarkovChain.empty : MarkovChain T).generate R rand maxLength).1 =
      .error .moduloByZero := by
  have hst : (MarkovChain.empty : MarkovChain T)._normalizeProbabilities.states = [] := by
    simp [MarkovChain.empty, MarkovChain._normalizeProbabilities]
  have hstart : startState rand
      (MarkovChain.empty : MarkovChain T)._normalizeProbabilities.states =
        .error .moduloByZero := by
    rw [hst]
    simp [startState]
  refine ⟨by rw [hst]; rfl, hstart, ?_⟩
  simp only [MarkovChain.generate, hstart]

/-- Claim C12.  For every token `x`, `addElement(x)` on the empty model gives
the model whose only state is `x`, with an empty transition vector, and whose
cursor is `x`; no transition is stored. -/
theorem C12_first_addElement (x : T) :
    (MarkovChain.empty : MarkovChain T).addElement x =
      { previousState := some x, states := [(x, [])] } ∧
    keys ((MarkovChain.empty : MarkovChain T).addElement x).states = [x] ∧
    (∀ A B, storedCounts ((MarkovChain.empty : MarkovChain T).addElement x).states A B = []) ∧
    ((MarkovChain.empty : MarkovChain T).addElement x).previousState = some x := by
  have h : (MarkovChain.empty : MarkovChain T).addElement x =
      { previousState := some x, states := [(x, [])] } := by
    simp [MarkovChain.addElement, MarkovChain.empty, withState, find]
  refine ⟨h, ?_, ?_, ?_⟩
  · rw [h]
    rfl
  · intro A B
    rw [h]
    by_cases hA : x = A
    · simp [storedCounts, countsTo, hA]
    · simp [storedCounts, countsTo, hA]
  · rw [h]

/-- Claim C17.  After a non-empty sequence `s` of `addElement` calls on the
empty model the cursor is the last token of `s` and is a key of the map.
Hence, in the next call, the lookup of the previous state at line 81 finds an
entry, the early return of lines 82-83 is not taken, and the cursor moves on to
the new token. -/
theorem C17_cursor_is_last_key (s : List T) (hs : s ≠ []) :
    (build s).previousState = some (s.getLast hs) ∧
    s.getLast hs ∈ keys (build s).states ∧
    ∀ element,
      (∃ ts, find (s.getLast hs) (withState element (build s).states) = some ts) ∧
      ((build s).addElement element).previousState = some element := by
  have hb := built_build s
  have hlast : s.getLast? = some (s.getLast hs) := List.getLast?_eq_getLast s hs
  have hprev : (build s).previousState = some (s.getLast hs) := hb.cursor.trans hlast
  have hkey : s.getLast hs ∈ keys (build s).states :=
    (hb.keys_iff _).2 (List.getLast_mem hs)
  refine ⟨hprev, hkey, ?_⟩
  intro element
  constructor
  · exact find_of_mem_keys ((mem_keys_withState _ element _).2 (Or.inl hkey))
  · rw [addElement_of_some element hprev hkey]

/-- An instance of claim C17 on the scenario, whose last token is `b`. -/
theorem C17_cursor_is_last_key_witness :
    scenario ≠ [] ∧
    (build scenario).previousState = some "b" ∧
    "b" ∈ keys (build scenario).states ∧
    ((build scenario).addElement "c").previousState = some "c" := by
  have hs : scenario ≠ [] := by decide
  have h := C17_cursor_is_last_key scenario hs
  have hl : scenario.getLast hs = "b" := rfl
  rw [hl] at h
  exact ⟨hs, h.1, h.2.1, (h.2.2 "c").2⟩

/-! ## The model after `generate` and `printToDot` -/

/-- Claim C13.  For every model `m` with at least one state, every
`maxLength` and every stream of random draws, the model left behind by
`generate`, and by `printToDot`, is `m` after `_normalizeProbabilities`: it
has the keys, in the same order, the cursor, and for every state the
destinations and counts, in the same order, of `m`. -/
theorem C13_model_after_generate (R : Nat) (rand : Nat → Nat) (m : MarkovChain T)
    (hm : m.states ≠ []) (maxLength : Nat) :
    m._normalizeProbabilities.states ≠ [] ∧
    (m.generate R rand maxLength).2 = m._normalizeProbabilities ∧
    m.printToDot.2 = m._normalizeProbabilities ∧
    m._normalizeProbabilities.previousState = m.previousState ∧
    keys m._normalizeProbabilities.states = keys m.states ∧
    skeleton m._normalizeProbabilities.states = skeleton m.states := by
  refine ⟨normalize_states_ne_nil hm, ?_, rfl, rfl, keys_normalize m, skeleton_normalize m⟩
  unfold MarkovChain.generate
  cases hstart : startState rand m._normalizeProbabilities.states with
  | error f => simp only [hstart]
  | ok start => simp only [hstart]

/-- An instance of claim C13 on the model built from the scenario. -/
theorem C13_model_after_generate_witness :
    (build scenario).states ≠ [] ∧
    ((build scenario).generate randMax31 halfDraws 3).2 =
      (build scenario)._normalizeProbabilities ∧
    (build scenario).printToDot.2 = (build scenario)._normalizeProbabilities := by
  have hs : (build scenario).states ≠ [] := by decide
  have h := C13_model_after_generate randMax31 halfDraws (build scenario) hs 3
  exact ⟨hs, h.2.1, h.2.2.1⟩

/-- Claim C14, counterexample.  After `2^31 + 1` copies of `x` the map holds
the transition `x -> x` with count `-2^31`, which is not at least one. -/
theorem C14_count_overflow_counterexample :
    (("x", [{ to_ := "x", count := -2147483648, probabilityNormalized := 1 }]) :
        String × List (Transition String)) ∈
      (build (List.replicate (2147483647 + 2) "x")).states ∧
    ¬ (1 ≤ (-2147483648 : Int)) := by
  have hw : wrapInt32 (((2147483647 : Nat) : Int) + 1) = -2147483648 := by
    norm_num [wrapInt32]
  rw [build_replicate, hw]
  exact ⟨List.mem_cons_self _ _, by norm_num⟩

/-- Claim C14, amended.  In every model obtained from the empty model by
`addElement` calls on a sequence in which no adjacent pair occurs `2^31` times
or more, every stored transition has a count of at least one, so for every
state with a transition the divisor `sum` by which `_normalizeProbabilities`
divides every count of that state is not zero; and in every model a state with
an empty transition vector is left as it is by `_normalizeProbabilities`. -/
theorem C14_counts_positive (s : List T) :
    (PairsBounded s → ∀ e ∈ (build s).states, ∀ t ∈ e.2, 1 ≤ t.count) ∧
    (PairsBounded s → ∀ e ∈ (build s).states, e.2 ≠ [] → sumCounts e.2 ≠ 0) ∧
    (∀ ts : List (Transition T), normalizeTransitions ts =
      ts.map fun t => { t with probabilityNormalized := (t.count : ℚ) / sumCounts ts }) ∧
    ∀ m : MarkovChain T, ∀ e ∈ m.states, e.2 = [] →
      normalizeTransitions e.2 = [] ∧ e ∈ m._normalizeProbabilities.states := by
  have hb := built_build s
  refine ⟨fun hbd e he t ht => hb.count_pos hbd he ht, ?_, fun ts => rfl, ?_⟩
  · intro hbd e he hne
    obtain ⟨t0, ht0⟩ := List.exists_mem_of_ne_nil _ hne
    have hpos : (1 : Int) ≤ t0.count := hb.count_pos hbd he ht0
    have hle : t0.count ≤ countSum e.2 :=
      le_countSum (fun u hu => hb.count_pos hbd he hu) ht0
    rw [sumCounts_eq]
    have : (0 : Int) < countSum e.2 := by omega
    exact_mod_cast this.ne.symm
  · intro m e he hnil
    have hn : normalizeTransitions e.2 = [] := by
      rw [hnil]
      rfl
    refine ⟨hn, ?_⟩
    simp only [MarkovChain._normalizeProbabilities, List.mem_map]
    refine ⟨e, he, ?_⟩
    rw [hn, ← hnil]

/-- An instance of the amended claim C14 on the scenario: the transition
`a -> c` of state `a` has count `1`, and the divisor of state `a` is not
zero. -/
theorem C14_counts_positive_witness :
    PairsBounded scenario ∧
    (("a", [{ to_ := "b", count := 2, probabilityNormalized := 1 },
            { to_ := "c", count := 1, probabilityNormalized := 1 }]) :
        String × List (Transition String)) ∈ (build scenario).states ∧
    (1 : Int) ≤ 1 ∧
    sumCounts ([{ to_ := "b", count := 2, probabilityNormalized := 1 },
      { to_ := "c", count := 1, probabilityNormalized := 1 }] :
        List (Transition String)) ≠ 0 := by
  have hmem : (("a", [{ to_ := "b", count := 2, probabilityNormalized := 1 },
            { to_ := "c", count := 1, probabilityNormalized := 1 }]) :
        String × List (Transition String)) ∈ (build scenario).states := by decide
  have h := C14_counts_positive scenario
  exact ⟨pairsBounded_scenario, hmem,
    h.1 pairsBounded_scenario _ hmem { to_ := "c", count := 1, probabilityNormalized := 1 }
      (List.mem_cons_of_mem _ (List.mem_cons_self _ _)),
    h.2.1 pairsBounded_scenario _ hmem (List.cons_ne_nil _ _)⟩

/-! ## One sampling step -/

omit [DecidableEq T] in
theorem cumulative_cons_zero (u : Transition T) (ts : List (Transition T)) :
    cumulative (u :: ts) 0 = u.probabilityNormalized := by
  simp [cumulative]

omit [DecidableEq T] in
theorem cumulative_cons_succ (u : Transition T) (ts : List (Transition T)) (i : Nat) :
    cumulative (u :: ts) (i + 1) = u.probabilityNormalized + cumulative ts i := by
  simp [cumulative]

/-- The inner loop started with running sum `acc` selects the transition at
the least index whose cumulative probability, added to `acc`, exceeds `r`. -/
theorem pick_eq_getElem {r : ℚ} {ts : List (Transition T)} {acc : ℚ} {j : Nat}
    (hj : j < ts.length) (hlt : r < acc + cumulative ts j)
    (hleast : ∀ i, i < j → ¬ r < acc + cumulative ts i) :
    pick r acc ts = ts[j]? := by
  induction ts generalizing acc j with
  | nil => simp at hj
  | cons u ts ih =>
    cases j with
    | zero =>
      rw [cumulative_cons_zero] at hlt
      simp [pick, hlt]
    | succ j =>
      have h0 : ¬ r < acc + u.probabilityNormalized := by
        have := hleast 0 (Nat.succ_pos j)
        rwa [cumulative_cons_zero] at this
      rw [cumulative_cons_succ, ← add_assoc] at hlt
      simp only [pick, h0, if_false, List.getElem?_cons_succ]
      apply ih (Nat.lt_of_succ_lt_succ hj) hlt
      intro i hi
      have := hleast (i + 1) (Nat.succ_lt_succ hi)
      rwa [cumulative_cons_succ, ← add_assoc] at this

/-- The inner loop selects nothing when no cumulative probability, added to
the running sum `acc`, exceeds `r`. -/
theorem pick_eq_none {r : ℚ} {ts : List (Transition T)} {acc : ℚ}
    (hnone : ∀ j, j < ts.length → ¬ r < acc + cumulative ts j) :
    pick r acc ts = none := by
  induction ts generalizing acc with
  | nil => rfl
  | cons u ts ih =>
    have h0 : ¬ r < acc + u.probabilityNormalized := by
      have := hnone 0 (Nat.succ_pos _)
      rwa [cumulative_cons_zero] at this
    simp only [pick, h0, if_false]
    apply ih
    intro j hj
    have := hnone (j + 1) (Nat.succ_lt_succ hj)
    rwa [cumulative_cons_succ, ← add_assoc] at this

omit [DecidableEq T] in
/-- The inner loop with addition `add`, started with running sum `acc`,
selects the transition at the least index at which the running sum exceeds
`r`. -/
theorem pickWith_eq_getElem (add : ℚ → ℚ → ℚ) {r : ℚ} {ts : List (Transition T)} {acc : ℚ}
    {j : Nat} (hj : j < ts.length)
    (hlt : r < ((ts.take (j + 1)).map fun t => t.probabilityNormalized).foldl add acc)
    (hleast : ∀ i, i < j →
      ¬ r < ((ts.take (i + 1)).map fun t => t.probabilityNormalized).foldl add acc) :
    pickWith add r acc ts = ts[j]? := by
  induction ts generalizing acc j with
  | nil => simp at hj
  | cons u ts ih =>
    cases j with
    | zero =>
      have h0 : r < add acc u.probabilityNormalized := by simpa using hlt
      simp [pickWith, h0]
    | succ j =>
      have h0 : ¬ r < add acc u.probabilityNormalized := by
        simpa using hleast 0 (Nat.succ_pos j)
      simp only [pickWith, h0, if_false, List.getElem?_cons_succ]
      apply ih (Nat.lt_of_succ_lt_succ hj)
      · simpa using hlt
      · intro i hi
        simpa using hleast (i + 1) (Nat.succ_lt_succ hi)

omit [DecidableEq T] in
/-- The inner loop with addition `add` selects nothing when the running sum
never exceeds `r`. -/
theorem pickWith_eq_none (add : ℚ → ℚ → ℚ) {r : ℚ} {ts : List (Transition T)} {acc : ℚ}
    (hnone : ∀ j, j < ts.length →
      ¬ r < ((ts.take (j + 1)).map fun t => t.probabilityNormalized).foldl add acc) :
    pickWith add r acc ts = none := by
  induction ts generalizing acc with
  | nil => rfl
  | cons u ts ih =>
    have h0 : ¬ r < add acc u.probabilityNormalized := by
      simpa using hnone 0 (Nat.succ_pos _)
    simp only [pickWith, h0, if_false]
    apply ih
    intro j hj
    simpa using hnone (j + 1) (Nat.succ_lt_succ hj)

omit [DecidableEq T] in
theorem pickWith_add_eq_pick (r acc : ℚ) (ts : List (Transition T)) :
    pickWith (fun a b => a + b) r acc ts = pick r acc ts := by
  induction ts generalizing acc with
  | nil => rfl
  | cons u ts ih =>
    by_cases h : r < acc + u.probabilityNormalized
    · simp [pickWith, pick, h]
    · simp [pickWith, pick, h, ih]

omit [DecidableEq T] in
theorem runningSum_add_eq_cumulative (ts : List (Transition T)) (j : Nat) :
    runningSum (fun a b => a + b) ts j = cumulative ts j := by
  unfold runningSum cumulative
  rw [List.sum_eq_foldl]

/-- Claim C15, counterexample.  After `2^32 + 1` copies of `x` the only count
of state `x` is `0`, and so is its probability (`0 / 0`, a NaN in the code):
the state has a transition, the draw `0` lies in `[0, 1)`, and the sampling
step selects nothing. -/
theorem C15_nothing_selected_counterexample :
    (("x", [{ to_ := "x", count := 0, probabilityNormalized := 0 }]) :
        String × List (Transition String)) ∈
      (build (List.replicate (4294967295 + 2) "x"))._normalizeProbabilities.states ∧
    ([{ to_ := "x", count := 0, probabilityNormalized := 0 }] :
      List (Transition String)) ≠ [] ∧
    (0 : ℚ) ≤ 0 ∧ (0 : ℚ) < 1 ∧
    pick 0 0 [({ to_ := "x", count := 0, probabilityNormalized := 0 } : Transition String)] =
      none := by
  rw [overflow_twice_normalized]
  exact ⟨List.mem_cons_self _ _, List.cons_ne_nil _ _, le_refl _, by norm_num,
    by simp [pick]⟩

/-- Claim C15, amended.  One sampling step of `generate` on the transitions
`t_0, ..., t_(k-1)` of a state, in stored order, with draw `r`: it selects the
transition `t_j` with the least index `j` at which the running sum of
`p_0, ..., p_j`, accumulated from `0` in stored order by the addition `add`
of the code, exceeds `r`, and selects nothing when there is no such `j`; with
the exact addition the running sum is `p_0 + ... + p_j`.  In exact arithmetic,
in a normalized model built by `addElement` from a sequence in which no
adjacent pair occurs `2^31` times or more, for every `r` with `0 ≤ r < 1` and
every state with at least one transition, a transition of that state is
selected. -/
theorem C15_sampling_step (s : List T) (add : ℚ → ℚ → ℚ) (r : ℚ)
    (ts : List (Transition T)) :
    (∀ j, j < ts.length → r < runningSum add ts j →
      (∀ i, i < j → ¬ r < runningSum add ts i) → pickWith add r 0 ts = ts[j]?) ∧
    ((∀ j, j < ts.length → ¬ r < runningSum add ts j) → pickWith add r 0 ts = none) ∧
    pickWith (fun a b => a + b) r 0 ts = pick r 0 ts ∧
    (∀ j, runningSum (fun a b => a + b) ts j = cumulative ts j) ∧
    (PairsBounded s → 0 ≤ r → r < 1 →
      ∀ e ∈ (build s)._normalizeProbabilities.states, e.2 ≠ [] →
        ∃ t ∈ e.2, pick r 0 e.2 = some t) := by
  refine ⟨?_, ?_, pickWith_add_eq_pick r 0 ts, runningSum_add_eq_cumulative ts, ?_⟩
  · intro j hj hlt hleast
    exact pickWith_eq_getElem add hj hlt hleast
  · intro hnone
    exact pickWith_eq_none add hnone
  · intro hbd h0 h1 e he hne
    have hsum := (built_build s).sum_probabilities hbd e he hne
    have hlt : r < 0 + (e.2.map fun t => t.probabilityNormalized).sum := by
      rw [hsum, zero_add]
      exact h1
    obtain ⟨t, ht⟩ := pick_isSome h0 hlt
    exact ⟨t, pick_mem ht, ht⟩

/-- An instance of the amended claim C15 on state `a` of the normalized
scenario, with the exact addition and the running sums `2/3` and `1`: the draw
`3/4` selects the transition at index `1`, the draw `1` selects nothing, and
the draw `1/2` selects a transition. -/
theorem C15_sampling_step_witness :
    pickWith (fun a b => a + b) (3 / 4) 0
      [({ to_ := "b", count := 2, probabilityNormalized := 2 / 3 } : Transition String),
        { to_ := "c", count := 1, probabilityNormalized := 1 / 3 }] =
      some { to_ := "c", count := 1, probabilityNormalized := 1 / 3 } ∧
    pickWith (fun a b => a + b) 1 0
      [({ to_ := "b", count := 2, probabilityNormalized := 2 / 3 } : Transition String),
        { to_ := "c", count := 1, probabilityNormalized := 1 / 3 }] = none ∧
    PairsBounded scenario ∧
    ∃ t ∈ [({ to_ := "b", count := 2, probabilityNormalized := 2 / 3 } : Transition String),
        { to_ := "c", count := 1, probabilityNormalized := 1 / 3 }],
      pick (1 / 2) 0
        [({ to_ := "b", count := 2, probabilityNormalized := 2 / 3 } : Transition String),
          { to_ := "c", count := 1, probabilityNormalized := 1 / 3 }] = some t := by
  have hmem : (("a", [{ to_ := "b", count := 2, probabilityNormalized := 2 / 3 },
            { to_ := "c", count := 1, probabilityNormalized := 1 / 3 }]) :
        String × List (Transition String)) ∈
      (build scenario)._normalizeProbabilities.states := by
    rw [scenario_states]
    exact List.mem_cons_self _ _
  refine ⟨?_, ?_, pairsBounded_scenario, ?_⟩
  · refine (C15_sampling_step scenario (fun a b => a + b) (3 / 4)
      [({ to_ := "b", count := 2, probabilityNormalized := 2 / 3 } : Transition String),
        { to_ := "c", count := 1, probabilityNormalized := 1 / 3 }]).1 1 (by decide) ?_ ?_
    · norm_num [runningSum]
    · intro i hi
      have hi0 : i = 0 := by omega
      subst hi0
      norm_num [runningSum]
  · refine (C15_sampling_step scenario (fun a b => a + b) 1
      [({ to_ := "b", count := 2, probabilityNormalized := 2 / 3 } : Transition String),
        { to_ := "c", count := 1, probabilityNormalized := 1 / 3 }]).2.1 ?_
    intro j hj
    have hj2 : j = 0 ∨ j = 1 := by
      simp only [List.length_cons, List.length_nil] at hj
      omega
    rcases hj2 with h | h <;> subst h <;> norm_num [runningSum]
  · exact (C15_sampling_step scenario (fun a b => a + b) (1 / 2) []).2.2.2.2
      pairsBounded_scenario (by norm_num) (by norm_num) _ hmem (List.cons_ne_nil _ _)

/-! ## Lookups made by `generate` -/

theorem isWalk_keys {st : StateMap T} (hcl : Closed st) {cur : T} {path : List T}
    (h : IsWalk st cur path) : ∀ y ∈ path, y ∈ keys st := by
  induction path generalizing cur with
  | nil => simp
  | cons z rest ih =>
    intro y hy
    have hz : z ∈ keys st := by
      obtain ⟨t, ht, htz⟩ := List.mem_map.1 h.1
      unfold outgoing at ht
      cases hf : find cur st with
      | none => simp [hf] at ht
      | some ts =>
        rw [hf] at ht
        exact htz ▸ hcl _ (mem_of_find hf) t ht
    rcases List.mem_cons.1 hy with h1 | h1
    · exact h1 ▸ hz
    · exact ih h.2 y h1

/-- Claim C18.  For every non-empty model built by `addElement` calls, every
`maxLength` and every stream of random draws: the start index
`rand() % states.size()` is below `states.size()`, `generate` returns a
sequence without raising `std::out_of_range`, and the start state and every
token the walk moves to are keys of the map, so that each
`states.at(currentState)` finds an entry. -/
theorem C18_lookups_succeed (R : Nat) (rand : Nat → Nat) (s : List T) (hs : s ≠ [])
    (maxLength : Nat) :
    rand 0 % (build s)._normalizeProbabilities.states.length <
      (build s)._normalizeProbabilities.states.length ∧
    ∃ start path,
      startState rand (build s)._normalizeProbabilities.states = .ok start ∧
      ((build s).generate R rand maxLength).1 = .ok path ∧
      ∀ y ∈ start :: path, ∃ ts, find y (build s)._normalizeProbabilities.states = some ts := by
  have hb := built_build s
  have hne := normalize_states_ne_nil (build_states_ne_nil hs)
  constructor
  · exact Nat.mod_lt _ (List.length_pos.2 hne)
  · obtain ⟨start, path, h1, h2, h3, _⟩ := generate_spec R rand hs maxLength
    obtain ⟨start2, h4, hkey⟩ := startState_ok rand hne
    have hst : start2 = start := by
      rw [h1] at h4
      cases h4
      rfl
    subst hst
    refine ⟨start2, path, h1, h2, ?_⟩
    intro y hy
    apply find_of_mem_keys
    rcases List.mem_cons.1 hy with h | h
    · exact h ▸ hkey
    · exact isWalk_keys (closed_normalize hb) h3 y h

/-- An instance of claim C18 on the scenario with `maxLength = 3`. -/
theorem C18_lookups_succeed_witness :
    scenario ≠ [] ∧
    halfDraws 0 % (build scenario)._normalizeProbabilities.states.length <
      (build scenario)._normalizeProbabilities.states.length ∧
    ∃ start path,
      startState halfDraws (build scenario)._normalizeProbabilities.states = .ok start ∧
      ((build scenario).generate randMax31 halfDraws 3).1 = .ok path ∧
      ∀ y ∈ start :: path,
        ∃ ts, find y (build scenario)._normalizeProbabilities.states = some ts :=
  ⟨by decide, C18_lookups_succeed randMax31 halfDraws scenario (by decide) 3⟩

/-! ## States and the order of destinations -/

theorem mem_firstOccurrences (y : T) (l : List T) : y ∈ firstOccurrences l ↔ y ∈ l := by
  induction l with
  | nil => simp [firstOccurrences]
  | cons a l ih =>
    by_cases h : y = a
    · simp [firstOccurrences, h]
    · simp [firstOccurrences, h, List.mem_filter, ih]

theorem firstOccurrences_append_singleton (l : List T) (x : T) :
    firstOccurrences (l ++ [x]) =
      if x ∈ l then firstOccurrences l else firstOccurrences l ++ [x] := by
  induction l with
  | nil => simp [firstOccurrences]
  | cons a l ih =>
    have hcons : firstOccurrences (a :: l ++ [x]) =
        a :: (firstOccurrences (l ++ [x])).filter fun y => y ≠ a := rfl
    have hcons2 : firstOccurrences (a :: l) =
        a :: (firstOccurrences l).filter fun y => y ≠ a := rfl
    rw [hcons, hcons2, ih]
    by_cases hxa : x = a
    · subst hxa
      by_cases hxl : x ∈ l
      · simp [hxl]
      · simp [hxl, List.filter_append]
    · have hax : ¬ a = x := fun h => hxa h.symm
      by_cases hxl : x ∈ l
      · simp [hxl, hxa]
      · simp [hxl, hxa, List.filter_append]

theorem dests_recordTransition (x : T) (ts : List (Transition T)) :
    (recordTransition x ts).map (fun t => t.to_) =
      if x ∈ ts.map (fun t => t.to_) then ts.map (fun t => t.to_)
      else ts.map (fun t => t.to_) ++ [x] := by
  induction ts with
  | nil => simp [recordTransition]
  | cons t ts ih =>
    by_cases h : t.to_ = x
    · simp [recordTransition, h]
    · have hx : ¬ x = t.to_ := fun h2 => h h2.symm
      simp only [recordTransition, h, if_false, List.map_cons, ih, List.mem_cons, hx, false_or]
      by_cases hm : x ∈ ts.map (fun t => t.to_)
      · simp only [hm, if_true]
      · simp only [hm, if_false, List.cons_append]

theorem followers_append_singleton (s : List T) (x A : T) :
    followers (s ++ [x]) A =
      followers s A ++ if s.getLast? = some A then [x] else [] := by
  unfold followers
  rw [adjacent_append_singleton, List.filter_append, List.map_append]
  cases hl : s.getLast? with
  | none => simp
  | some p =>
    by_cases h : p = A
    · simp [h]
    · simp [h]

/-- The destinations stored for `A`, in stored order, are the followers of `A`
in the training sequence in the order of their first occurrence. -/
theorem dests_build (s : List T) (A : T) :
    (outgoing (build s).states A).map (fun t => t.to_) =
      firstOccurrences (followers s A) := by
  induction s using List.reverseRecOn with
  | nil => simp [build, MarkovChain.empty, outgoing, find, followers, adjacent, firstOccurrences]
  | append_singleton s x ih =>
    have hb := built_build s
    rw [build_append_singleton, followers_append_singleton]
    cases hp : (build s).previousState with
    | none =>
      have hlast : s.getLast? = none := hb.cursor ▸ hp
      rw [addElement_of_none x hp]
      simp only [outgoing_withState, hlast]
      simpa using ih
    | some p =>
      have hlast : s.getLast? = some p := hb.cursor ▸ hp
      have hpk : p ∈ keys (build s).states :=
        (hb.keys_iff p).2 (List.mem_of_getLast?_eq_some hlast)
      have hpk2 : p ∈ keys (withState x (build s).states) :=
        (mem_keys_withState p x _).2 (Or.inl hpk)
      rw [addElement_of_some x hp hpk]
      simp only []
      rw [outgoing_modify A p _ _ hpk2, hlast]
      simp only [outgoing_withState]
      by_cases hA : A = p
      · subst hA
        rw [if_pos rfl, if_pos rfl, dests_recordTransition, ih,
          firstOccurrences_append_singleton]
        simp only [mem_firstOccurrences]
      · have hA2 : ¬ some p = some A := fun h => hA (Option.some.inj h).symm
        rw [if_neg hA, if_neg hA2, List.append_nil, ih]

/-- Claim C16.  For every token sequence `s` fed by `addElement` to the empty
model, the keys of the state map are pairwise distinct and are exactly the
tokens that occur in `s`, and for each state `A` the destinations of the
transition vector of `A` are, in stored order, the tokens that follow `A` in
`s` in the order in which the pairs `(A, B)` first occur.  The scenario
`[a,b,a,c,a,b]` has the states `a`, `b`, `c`, and the vector of `a` is
`b, c`. -/
theorem C16_states_and_destination_order (s : List T) (A : T) :
    (keys (build s).states).Nodup ∧
    (∀ k, k ∈ keys (build s).states ↔ k ∈ s) ∧
    (outgoing (build s).states A).map (fun t => t.to_) = firstOccurrences (followers s A) ∧
    keys (build scenario).states = ["a", "b", "c"] ∧
    (outgoing (build scenario).states "a").map (fun t => t.to_) = ["b", "c"] := by
  have hb := built_build s
  exact ⟨hb.nodup, hb.keys_iff, dests_build s A, by decide, by decide⟩

/-! ## The loop counter -/

theorem loopIterations_neg (R : Nat) (rand : Nat → Nat) (st : StateMap T) {itemCount : Int}
    (h : itemCount < 0) (calls : Nat) (cur : T) :
    loopIterations R rand st itemCount calls cur = 0 := by
  rw [loopIterations]
  simp [not_le.2 h]

theorem loopIterations_le (R : Nat) (rand : Nat → Nat) (st : StateMap T) (n : Nat) :
    ∀ (itemCount : Int) (calls : Nat) (cur : T), (itemCount + 1).toNat = n →
      loopIterations R rand st itemCount calls cur ≤ n := by
  induction n with
  | zero =>
    intro itemCount calls cur hn
    rw [loopIterations_neg R rand st (by omega)]
  | succ n ih =>
    intro itemCount calls cur hn
    have h0 : 0 ≤ itemCount := by omega
    have hn1 : (itemCount - 1 + 1).toNat = n := by omega
    rw [loopIterations]
    simp only [h0, if_true]
    cases find cur st with
    | none =>
      simp only []
      omega
    | some ts =>
      simp only []
      by_cases hlen : ts.length = 0
      · simp only [hlen, if_true]
        omega
      · simp only [hlen, if_false]
        cases hp : pick ((rand calls : ℚ) / (R : ℚ)) 0 ts with
        | none =>
          have := ih (itemCount - 1) (calls + 1) cur hn1
          simp only []
          omega
        | some t =>
          have := ih (itemCount - 1) (calls + 1) t.to_ hn1
          simp only []
          omega

theorem toInt32_of_ge {n : Nat} (h1 : 2 ^ 31 ≤ n) (h2 : n < 2 ^ 32) :
    toInt32 n = (n : Int) - 2 ^ 32 := by
  unfold toInt32
  have hmod : n % 2 ^ 32 = n := Nat.mod_eq_of_lt h2
  rw [hmod, if_neg (by omega)]

/-- Claim C19.  The counter of the loop of `generate` is the 32-bit unsigned
`maxLength` converted to a 32-bit signed `int`.  For
`0 ≤ maxLength ≤ 2^31 - 1` the counter is `maxLength` and the loop body is
entered at most `maxLength + 1` times.  For `2^31 ≤ maxLength < 2^32` the
counter is the negative value `maxLength - 2^32`, the body is never entered,
and `generate` returns the empty sequence on every model with at least one
state. -/
theorem C19_loop_counter (R : Nat) (rand : Nat → Nat) (m : MarkovChain T)
    (hm : m.states ≠ []) (maxLength : Nat) :
    (maxLength ≤ 2 ^ 31 - 1 →
      toInt32 maxLength = (maxLength : Int) ∧
      ∀ start, loopIterations R rand m._normalizeProbabilities.states
        (toInt32 maxLength) 1 start ≤ maxLength + 1) ∧
    (2 ^ 31 ≤ maxLength → maxLength < 2 ^ 32 →
      toInt32 maxLength = (maxLength : Int) - 2 ^ 32 ∧
      toInt32 maxLength < 0 ∧
      (∀ start, loopIterations R rand m._normalizeProbabilities.states
        (toInt32 maxLength) 1 start = 0) ∧
      (m.generate R rand maxLength).1 = .ok []) := by
  constructor
  · intro hle
    have hlt : maxLength < 2 ^ 31 := by omega
    refine ⟨toInt32_of_lt hlt, ?_⟩
    intro start
    apply loopIterations_le
    rw [toInt32_of_lt hlt]
    omega
  · intro h1 h2
    have heq := toInt32_of_ge h1 h2
    have hneg : toInt32 maxLength < 0 := by
      rw [heq]
      omega
    refine ⟨heq, hneg, fun start => loopIterations_neg R rand _ hneg 1 start, ?_⟩
    obtain ⟨start, hst, _⟩ := startState_ok rand (normalize_states_ne_nil hm)
    simp only [MarkovChain.generate, hst]
    exact generateLoop_neg R rand _ hneg 1 start []

/-- An instance of claim C19 on the model built from the scenario, with
`maxLength = 3` and with `maxLength = 2^31`. -/
theorem C19_loop_counter_witness :
    (build scenario).states ≠ [] ∧ 3 ≤ 2 ^ 31 - 1 ∧ 2 ^ 31 ≤ 2 ^ 31 ∧ 2 ^ 31 < 2 ^ 32 ∧
    loopIterations randMax31 halfDraws (build scenario)._normalizeProbabilities.states
      (toInt32 3) 1 "b" ≤ 3 + 1 ∧
    toInt32 (2 ^ 31) = ((2 ^ 31 : Nat) : Int) - 2 ^ 32 ∧
    ((build scenario).generate randMax31 halfDraws (2 ^ 31)).1 = .ok [] := by
  have hs : (build scenario).states ≠ [] := by decide
  have h3 : 3 ≤ 2 ^ 31 - 1 := by norm_num
  have h31 : 2 ^ 31 ≤ 2 ^ 31 := le_refl _
  have h32 : 2 ^ 31 < 2 ^ 32 := by norm_num
  have ha := (C19_loop_counter randMax31 halfDraws (build scenario) hs 3).1 h3
  have hb := (C19_loop_counter randMax31 halfDraws (build scenario) hs (2 ^ 31)).2 h31 h32
  exact ⟨hs, h3, h31, h32, ha.2 "b", hb.1, hb.2.2.2⟩

/-! ## Sums of counts -/

theorem countSum_recordTransition (x : T) (ts : List (Transition T))
    (hw : ∀ t ∈ ts, t.to_ = x → wrapInt32 (t.count + 1) = t.count + 1) :
    countSum (recordTransition x ts) = countSum ts + 1 := by
  induction ts with
  | nil => simp [recordTransition, countSum]
  | cons t ts ih =>
    by_cases h : t.to_ = x
    · have := hw t (List.mem_cons_self _ _) h
      simp only [recordTransition, h, if_true, countSum, List.map_cons, List.sum_cons, this]
      omega
    · have ih2 := ih (fun u hu => hw u (List.mem_cons_of_mem _ hu))
      simp only [countSum] at ih2
      simp only [recordTransition, h, if_false, countSum, List.map_cons, List.sum_cons, ih2]
      omega

theorem totalCount_withState (x : T) (st : StateMap T) :
    totalCount (withState x st) = totalCount st := by
  unfold withState
  cases find x st with
  | none => simp [totalCount, countSum]
  | some ts => rfl

theorem totalCount_modify_record (x : T) {p : T} {st : StateMap T} (hp : p ∈ keys st)
    (hw : ∀ t ∈ outgoing st p, t.to_ = x → wrapInt32 (t.count + 1) = t.count + 1) :
    totalCount (modify p (recordTransition x) st) = totalCount st + 1 := by
  induction st with
  | nil => simp [keys] at hp
  | cons e rest ih =>
    by_cases h : e.1 = p
    · have hw2 : ∀ t ∈ e.2, t.to_ = x → wrapInt32 (t.count + 1) = t.count + 1 := by
        intro t ht
        apply hw
        simpa [outgoing, find, h] using ht
      simp only [modify, h, if_true, totalCount, List.map_cons, List.sum_cons,
        countSum_recordTransition x e.2 hw2]
      omega
    · have hp2 : p ∈ keys rest := by
        simp only [keys, List.map_cons, List.mem_cons] at hp
        rcases hp with h1 | h1
        · exact absurd h1.symm h
        · exact h1
      have hw2 : ∀ t ∈ outgoing rest p, t.to_ = x →
          wrapInt32 (t.count + 1) = t.count + 1 := by
        intro t ht
        apply hw
        simpa [outgoing, find, h] using ht
      have := ih hp2 hw2
      simp only [totalCount] at this
      simp only [modify, h, if_false, totalCount, List.map_cons, List.sum_cons, this]
      omega

theorem pairsBounded_of_append {s : List T} {x : T} (h : PairsBounded (s ++ [x])) :
    PairsBounded s := by
  intro A B
  have := h A B
  rw [adjacentCount_append_singleton] at this
  omega

theorem count_eq_count_dropLast {s : List T} {p : T} (hl : s.getLast? = some p) (A : T) :
    s.count A = s.dropLast.count A + if p = A then 1 else 0 := by
  have hs : s = s.dropLast ++ [p] := by
    have hne : s ≠ [] := fun h => by simp [h] at hl
    have h1 := List.dropLast_append_getLast hne
    have h2 : s.getLast hne = p := by
      rw [List.getLast?_eq_getLast s hne] at hl
      exact Option.some.inj hl
    rw [h2] at h1
    exact h1.symm
  conv_lhs => rw [hs]
  rw [List.count_append, List.count_singleton]
  by_cases h : p = A
  · simp [h]
  · simp [h]

/-- When no pair occurs `2^31` times or more, the sum of the counts stored for
`A` is the number of occurrences of `A` before the last position of `s`, and
the sum of all counts is the number of adjacent positions of `s`. -/
theorem countSums_build (s : List T) : PairsBounded s →
    (∀ A, countSum (outgoing (build s).states A) = (s.dropLast.count A : Int)) ∧
    totalCount (build s).states = ((s.length - 1 : Nat) : Int) := by
  induction s using List.reverseRecOn with
  | nil =>
    intro _
    simp [build, MarkovChain.empty, outgoing, find, countSum, totalCount]
  | append_singleton s x ih =>
    intro hbd
    have hbds := pairsBounded_of_append hbd
    have ih := ih hbds
    have hb := built_build s
    rw [build_append_singleton, List.dropLast_concat]
    cases hp : (build s).previousState with
    | none =>
      have hs : s = [] := List.getLast?_eq_none_iff.1 (hb.cursor ▸ hp)
      rw [addElement_of_none x hp]
      simp only [outgoing_withState, totalCount_withState]
      subst hs
      simpa using ih
    | some p =>
      have hlast : s.getLast? = some p := hb.cursor ▸ hp
      have hne : s ≠ [] := fun h => by simp [h] at hlast
      have hlen : 0 < s.length := List.length_pos.2 hne
      have hpk : p ∈ keys (build s).states :=
        (hb.keys_iff p).2 (List.mem_of_getLast?_eq_some hlast)
      have hpk2 : p ∈ keys (withState x (build s).states) :=
        (mem_keys_withState p x _).2 (Or.inl hpk)
      have hw : ∀ t ∈ outgoing (build s).states p, t.to_ = x →
          wrapInt32 (t.count + 1) = t.count + 1 := by
        intro t ht hto
        obtain ⟨ts, hts⟩ := find_of_mem_keys hpk
        have htm : t ∈ ts := by simpa [outgoing, hts] using ht
        have hc := (hb.count_eq hbds (mem_of_find hts) htm).2
        simp only [hto] at hc
        have hnext := hbd p x
        rw [adjacentCount_append_singleton, hlast] at hnext
        simp only [and_self, if_true] at hnext
        exact wrapInt32_of_lt (by omega) (by omega)
      rw [addElement_of_some x hp hpk]
      simp only []
      constructor
      · intro A
        rw [outgoing_modify A p _ _ hpk2, count_eq_count_dropLast hlast A]
        simp only [outgoing_withState]
        by_cases hA : A = p
        · subst hA
          rw [if_pos rfl, if_pos rfl, countSum_recordTransition x _ hw, ih.1]
          push_cast
          rfl
        · have hA2 : ¬ p = A := fun h => hA h.symm
          rw [if_neg hA, if_neg hA2, ih.1]
          simp
      · have hw2 : ∀ t ∈ outgoing (withState x (build s).states) p, t.to_ = x →
            wrapInt32 (t.count + 1) = t.count + 1 := by
          rw [outgoing_withState]
          exact hw
        rw [totalCount_modify_record x hpk2 hw2, totalCount_withState, ih.2]
        simp only [List.length_append, List.length_singleton]
        omega

/-- Claim C20, counterexample.  After `2^31 + 1` copies of `x` the counts of
the model sum to `-2^31`, while the sequence has `2^31 + 1` tokens, so that
`n - 1` is `2^31`. -/
theorem C20_sum_overflow_counterexample :
    ((build (List.replicate (2147483647 + 2) "x")).states.map fun e => countSum e.2).sum =
      -2147483648 ∧
    countSum (outgoing (build (List.replicate (2147483647 + 2) "x")).states "x") =
      -2147483648 ∧
    ((List.replicate (2147483647 + 2) "x").length : Int) - 1 = 2147483648 := by
  have hw : wrapInt32 (((2147483647 : Nat) : Int) + 1) = -2147483648 := by
    norm_num [wrapInt32]
  rw [build_replicate, hw, List.length_replicate]
  refine ⟨?_, ?_, by norm_num⟩
  · simp [countSum]
  · simp [countSum, outgoing, find]

/-- Claim C20, amended.  For every token sequence `s` of length `n ≥ 1` in
which no adjacent pair occurs `2^31` times or more, fed by `addElement` to the
empty model, the counts of the transitions of a state `A` sum to the number of
occurrences of `A` among `s[0..n-2]`, and all the transition counts of the
model sum to `n - 1`. -/
theorem C20_count_sums (s : List T) (hs : s ≠ []) (hbd : PairsBounded s) (A : T) :
    countSum (outgoing (build s).states A) = (s.dropLast.count A : Int) ∧
    ((build s).states.map fun e => countSum e.2).sum = (s.length : Int) - 1 := by
  have h := countSums_build s hbd
  refine ⟨h.1 A, ?_⟩
  have hlen : 0 < s.length := List.length_pos.2 hs
  have ht : totalCount (build s).states = ((s.length - 1 : Nat) : Int) := h.2
  unfold totalCount at ht
  rw [ht]
  omega

/-- An instance of the amended claim C20 on the scenario `[a,b,a,c,a,b]`: `a`
occurs three times among the first five tokens, and the counts sum to `5`. -/
theorem C20_count_sums_witness :
    scenario ≠ [] ∧ PairsBounded scenario ∧
    countSum (outgoing (build scenario).states "a") = 3 ∧
    ((build scenario).states.map fun e => countSum e.2).sum = 5 := by
  have hs : scenario ≠ [] := by decide
  have h := C20_count_sums scenario hs pairsBounded_scenario "a"
  have h1 : (scenario.dropLast.count "a" : Int) = 3 := by decide
  have h2 : (scenario.length : Int) - 1 = 5 := by decide
  rw [h1, h2] at h
  exact ⟨hs, pairsBounded_scenario, h⟩

end Markov
